import Mathlib

/-!
Verification of the combinational logic simulator `digitalsim.py`
(repository `first_apl_thing`).

The Python source is shallowly embedded below.  Lines of text and signal
names are modelled as `List Char` (obtained from Lean `String` literals via
`String.data`), Python `int` as `Int` (with the two's-complement bitwise
operations `Int.land`, `Int.lor`, `Int.xor`, which match Python `&`, `|`,
`^`), Python exceptions as `Except SimError`, and Python `dict` as an
association list with unique keys built by `dictInsert`.

Since a Python `dict` (and the sets used to build `all_nodes`) has an
iteration order that the program does not rely on for its observable
output, every property about the produced waveform map is stated through
the lookup function `wfGet` (for the waveform map) and `envGet` (for the
per-step signal environment).
-/

/-! ### Python string primitives -/

/-- The whitespace characters stripped by Python `str.strip()` and used by
`str.split()` with no arguments. -/
def isPySpace (c : Char) : Bool :=
  c = ' ' || c = '\t' || c = '\n' || c = '\x0d' || c = '\x0b' || c = '\x0c'

/-- Python `s.split(sep)` for a one-character separator `sep`:
`"a=b=c".split("=") == ["a","b","c"]`, `"".split("=") == [""]`. -/
def splitOnChar (c : Char) : List Char → List (List Char)
  | [] => [[]]
  | x :: xs =>
    if x = c then [] :: splitOnChar c xs
    else
      match splitOnChar c xs with
      | [] => [[x]]
      | y :: ys => (x :: y) :: ys

/-- Segments of a list obtained by cutting at every character satisfying
`p` (empty segments included). -/
def splitOnPred (p : Char → Bool) : List Char → List (List Char)
  | [] => [[]]
  | x :: xs =>
    if p x then [] :: splitOnPred p xs
    else
      match splitOnPred p xs with
      | [] => [[x]]
      | y :: ys => (x :: y) :: ys

/-- Python `s.split()` (no arguments): split on whitespace runs, dropping
empty tokens. -/
def pyWords (s : List Char) : List (List Char) :=
  (splitOnPred isPySpace s).filter (fun t => t ≠ [])

/-- Python `s.strip()`. -/
def pyStrip (s : List Char) : List Char :=
  ((s.dropWhile isPySpace).reverse.dropWhile isPySpace).reverse

/-- Python `s.startswith(pat)`. -/
def startsWithCh : List Char → List Char → Bool
  | [], _ => true
  | _ :: _, [] => false
  | a :: as_, b :: bs => a = b && startsWithCh as_ bs

/-- Rejoin segments with the separator character `c` between them. -/
def joinWithChar (c : Char) : List (List Char) → List Char
  | [] => []
  | [x] => x
  | x :: y :: ys => x ++ c :: joinWithChar c (y :: ys)

/-- Python `s.split(sep, 1)` for a one-character separator: at most one
split, everything after the first occurrence of `sep` (later occurrences
included) forms the second piece. -/
def pySplitOnce (c : Char) (s : List Char) : List (List Char) :=
  match splitOnChar c s with
  | [] => []
  | [x] => [x]
  | x :: rest => [x, joinWithChar c rest]

/-- Digits-only parse used by `pyParseInt`. -/
def parseNatDigits : List Char → Option Nat → Option Nat
  | [], acc => acc
  | c :: cs, acc =>
    if c.isDigit then
      parseNatDigits cs (some ((acc.getD 0) * 10 + (c.toNat - '0'.toNat)))
    else none

/-- Python `int(s)` on a whitespace-free token: an optional sign followed
by at least one decimal digit; anything else raises (here: `none`). -/
def pyParseInt (s : List Char) : Option Int :=
  match s with
  | '-' :: rest => (parseNatDigits rest none).map (fun n => -(n : Int))
  | '+' :: rest => (parseNatDigits rest none).map (fun n => (n : Int))
  | _ => (parseNatDigits s none).map (fun n => (n : Int))

/-! ### Data model (the `Circuit` dictionary returned by the parser) -/

/-- One entry of the `gates` list: the tuple `(out_sig, gate_kind, params)`
appended by the parser for each gate line. -/
structure Gate where
  out_sig : List Char
  gate_kind : List Char
  params : List (List Char)
deriving DecidableEq

/-- The dictionary returned by `parse_netlsit`. -/
structure Circuit where
  inputs : List (List Char)
  outputs : List (List Char)
  gates : List Gate
  stimulus : List (Int × List Int)
deriving DecidableEq

/-- The `ValueError`/`IndexError` exceptions the Python program can raise,
per the error taxonomy: missing section, malformed gate line (no `=`
unpacking into two pieces, or no `(` on the right-hand side), unparsable
integer token, stimulus line with the wrong number of values,
non-monotonic timestamps, unknown gate kind, and out-of-range operand
indexing inside `eval_gate`. -/
inductive SimError where
  | missingSection (name : List Char)
  | malformedGateLine (line : List Char)
  | badIntLiteral (tok : List Char)
  | stimulusMismatch (line : List Char)
  | nonMonotonicTime
  | unknownGateKind (kind : List Char)
  | indexError
deriving DecidableEq

/-! ### Netlist parser (`parse_netlsit`) -/

/-- The preprocessing loop: split into lines, strip each line, drop blank
lines and full-line `#` comments. -/
def cleanLines (text_data : String) : List (List Char) :=
  ((splitOnChar '\n' text_data.data).map pyStrip).filter
    (fun l => l ≠ [] && !startsWithCh ['#'] l)

/-- Index of the first line starting with `pat`, if any. -/
def locateAux (pat : List Char) : List (List Char) → Option Nat
  | [] => none
  | l :: ls =>
    if startsWithCh pat l then some 0 else (locateAux pat ls).map (· + 1)

/-- `locate_section`: index of the first cleaned line starting with
`section_name + ":"`, or a `MissingSection` error. -/
def locate_section (lines_cleaned : List (List Char)) (section_name : String) :
    Except SimError Nat :=
  match locateAux (section_name.data ++ [':']) lines_cleaned with
  | some idx => .ok idx
  | none => .error (.missingSection section_name.data)

/-- `lines_cleaned[idx].split(":", 1)[1].split()`: the whitespace-separated
names after the first colon of the section header line at `idx`. -/
def sectionNames (lines_cleaned : List (List Char)) (idx : Nat) : List (List Char) :=
  pyWords ((pySplitOnce ':' (lines_cleaned.getD idx [])).getD 1 [])

/-- One gate line: `lhs, rhs = content.split("=")` (so exactly one `=` is
required), output name `lhs.strip()`, kind `rhs.split("(")[0].strip()`
(fails unless `rhs` contains a `(`), operands
`rhs.split("(")[1].split(")")[0].split(",")` with each token stripped. -/
def parseGateLine (content : List Char) : Except SimError Gate :=
  match splitOnChar '=' content with
  | [lhs, rhs] =>
    match splitOnChar '(' rhs with
    | kindPart :: seg :: _ =>
      .ok ⟨pyStrip lhs, pyStrip kindPart,
        (splitOnChar ',' ((splitOnChar ')' seg).getD 0 [])).map pyStrip⟩
    | _ => .error (.malformedGateLine content)
  | _ => .error (.malformedGateLine content)

/-- The gate-region loop over `lines_cleaned[idx_gates + 1 : idx_stimulus]`
(the emptiness/comment test is kept from the source even though cleaned
lines can never satisfy it). -/
def parseGates : List (List Char) → Except SimError (List Gate)
  | [] => .ok []
  | content :: rest =>
    if startsWithCh ['#'] content || content = [] then parseGates rest
    else
      match parseGateLine content with
      | .error e => .error e
      | .ok g =>
        match parseGates rest with
        | .error e => .error e
        | .ok gs => .ok (g :: gs)

/-- `[int(x) for x in tokens]`, failing on the first bad literal. -/
def parseIntList : List (List Char) → Except SimError (List Int)
  | [] => .ok []
  | t :: ts =>
    match pyParseInt t with
    | none => .error (.badIntLiteral t)
    | some v =>
      match parseIntList ts with
      | .error e => .error e
      | .ok vs => .ok (v :: vs)

/-- The stimulus-region loop over `lines_cleaned[idx_stimulus + 1 :]`:
split each line on whitespace, skip empty token lists, parse the timestamp
and the value list, and check the value count against the number of
declared inputs. -/
def parseStimLines (numInputs : Nat) : List (List Char) → Except SimError (List (Int × List Int))
  | [] => .ok []
  | content :: rest =>
    match pyWords content with
    | [] => parseStimLines numInputs rest
    | t0 :: vals =>
      match pyParseInt t0 with
      | none => .error (.badIntLiteral t0)
      | some timestamp =>
        match parseIntList vals with
        | .error e => .error e
        | .ok values =>
          if values.length ≠ numInputs then .error (.stimulusMismatch content)
          else
            match parseStimLines numInputs rest with
            | .error e => .error e
            | .ok stim => .ok ((timestamp, values) :: stim)

/-- Keep one copy of every element (Python `set` contents). -/
def dedupInts : List Int → List Int
  | [] => []
  | x :: xs => if x ∈ dedupInts xs then dedupInts xs else x :: dedupInts xs

/-- Insertion step of an ascending insertion sort. -/
def insertSorted (x : Int) : List Int → List Int
  | [] => [x]
  | y :: ys => if x ≤ y then x :: y :: ys else y :: insertSorted x ys

/-- Ascending sort (models Python `sorted` on a list of distinct ints). -/
def sortInts (l : List Int) : List Int := l.foldr insertSorted []

/-- Python `sorted(set(l))`: the ascending list of the distinct elements. -/
def sortedDedupInt (l : List Int) : List Int := sortInts (dedupInts l)

/-- `parse_netlsit` (the source's spelling): the whole parser. -/
def parse_netlsit (text_data : String) : Except SimError Circuit :=
  let lines_cleaned := cleanLines text_data
  match locate_section lines_cleaned "OUTPUTS" with
  | .error e => .error e
  | .ok idx_outputs =>
    match locate_section lines_cleaned "GATES" with
    | .error e => .error e
    | .ok idx_gates =>
      match locate_section lines_cleaned "INPUTS" with
      | .error e => .error e
      | .ok idx_inputs =>
        match locate_section lines_cleaned "STIMULUS" with
        | .error e => .error e
        | .ok idx_stimulus =>
          let input_signals := sectionNames lines_cleaned idx_inputs
          let output_signals := sectionNames lines_cleaned idx_outputs
          match parseGates ((lines_cleaned.take idx_stimulus).drop (idx_gates + 1)) with
          | .error e => .error e
          | .ok logic_blocks =>
            match parseStimLines input_signals.length (lines_cleaned.drop (idx_stimulus + 1)) with
            | .error e => .error e
            | .ok stimuli_data =>
              let times_list := stimuli_data.map Prod.fst
              if times_list = sortedDedupInt times_list then
                .ok ⟨input_signals, output_signals, logic_blocks, stimuli_data⟩
              else .error .nonMonotonicTime

/-! ### Signal environment (the per-step `signal_env` dict) -/

/-- A Python dict from signal names to values, as an association list with
unique keys (unique because it is only ever built with `dictInsert`). -/
abbrev Env := List (List Char × Int)

/-- Dict lookup (`signal_env[n]` / `n in signal_env` / `.get`). -/
def envGet : Env → List Char → Option Int
  | [], _ => none
  | (k, v) :: rest, n => if k = n then some v else envGet rest n

/-- Dict assignment `signal_env[k] = v`: replace the binding of `k` if
present, otherwise append a new one. -/
def dictInsert : Env → List Char → Int → Env
  | [], k, v => [(k, v)]
  | (k1, v1) :: rest, k, v =>
    if k1 = k then (k, v) :: rest else (k1, v1) :: dictInsert rest k v

/-- `dict(zip(input_signals, input_values))`. -/
def envSeed (input_signals : List (List Char)) (input_values : List Int) : Env :=
  (input_signals.zip input_values).foldl (fun e kv => dictInsert e kv.1 kv.2) []

/-! ### Gate evaluation (`eval_gate`) -/

/-- `eval_gate`: dispatch on the kind string in source order
(AND, OR, NOT, XOR); `args[i]` beyond the end of the list is an
`IndexError`; any other kind is an `UnknownGateKind` error naming it.
`Int.land`/`Int.lor`/`Int.xor` are the two's-complement operations agreeing
with Python `&`/`|`/`^` on arbitrary ints. -/
def eval_gate (gate_kind : List Char) (args : List Int) : Except SimError Int :=
  if gate_kind = "AND".data then
    match args with
    | a :: b :: _ => .ok (Int.land a b)
    | _ => .error .indexError
  else if gate_kind = "OR".data then
    match args with
    | a :: b :: _ => .ok (Int.lor a b)
    | _ => .error .indexError
  else if gate_kind = "NOT".data then
    match args with
    | a :: _ => .ok (1 - a)
    | _ => .error .indexError
  else if gate_kind = "XOR".data then
    match args with
    | a :: b :: _ => .ok (Int.xor a b)
    | _ => .error .indexError
  else .error (.unknownGateKind gate_kind)

/-! ### One fixed-point pass (`for dest, kind, params in logic_blocks: ...`) -/

/-- One full scan over the gate list: a gate whose output is already bound
is skipped; a gate whose operands are all bound is evaluated and its
output inserted (setting the changed flag); other gates are left for a
later pass.  The environment keeps evolving within the pass, exactly as
the Python loop mutates `signal_env` while iterating. -/
def scanGates : List Gate → Env → Except SimError (Env × Bool)
  | [], env => .ok (env, false)
  | g :: gs, env =>
    if (envGet env g.out_sig).isSome then scanGates gs env
    else if g.params.all (fun p => (envGet env p).isSome) then
      match eval_gate g.gate_kind (g.params.map (fun p => (envGet env p).getD 0)) with
      | .error e => .error e
      | .ok v =>
        match scanGates gs (dictInsert env g.out_sig v) with
        | .error e => .error e
        | .ok (env2, _) => .ok (env2, true)
    else scanGates gs env

/-- `envGet` after `dictInsert` is the pointwise update. -/
theorem envGet_dictInsert (env : Env) (k : List Char) (v : Int) (n : List Char) :
    envGet (dictInsert env k v) n = if k = n then some v else envGet env n := by
  induction env with
  | nil => simp [dictInsert, envGet]
  | cons kv rest ih =>
    obtain ⟨k1, v1⟩ := kv
    by_cases h1 : k1 = k
    · subst h1
      simp only [dictInsert, if_pos rfl, envGet]
      by_cases h2 : k1 = n <;> simp [h2]
    · simp only [dictInsert, if_neg h1, envGet]
      by_cases h2 : k1 = n
      · subst h2
        have : ¬ k = k1 := fun h => h1 h.symm
        simp [envGet, this]
      · simp [envGet, h2, ih]

/-- Inserting an absent key appends it. -/
theorem dictInsert_absent (env : Env) (k : List Char) (v : Int)
    (h : envGet env k = none) : dictInsert env k v = env ++ [(k, v)] := by
  induction env with
  | nil => simp [dictInsert]
  | cons kv rest ih =>
    obtain ⟨k1, v1⟩ := kv
    simp only [envGet] at h
    by_cases h1 : k1 = k
    · simp [h1] at h
    · simp only [if_neg h1] at h
      simp [dictInsert, h1, ih h]

/-- The environment at the end of a situation extends the one at its
start: `e2 = e1 ++ r` for some `r`. -/
def envLe (e1 e2 : Env) : Prop := ∃ r, e2 = e1 ++ r

theorem envLe_refl (e : Env) : envLe e e := ⟨[], by simp⟩

theorem envLe_trans {e1 e2 e3 : Env} (h1 : envLe e1 e2) (h2 : envLe e2 e3) :
    envLe e1 e3 := by
  obtain ⟨r1, rfl⟩ := h1
  obtain ⟨r2, rfl⟩ := h2
  exact ⟨r1 ++ r2, by simp⟩

theorem envGet_append_some {e : Env} {n : List Char} {v : Int} (r : Env)
    (h : envGet e n = some v) : envGet (e ++ r) n = some v := by
  induction e with
  | nil => simp [envGet] at h
  | cons kv rest ih =>
    obtain ⟨k1, v1⟩ := kv
    simp only [envGet] at h ⊢
    by_cases h1 : k1 = n
    · simpa [h1] using h
    · simp only [if_neg h1] at h ⊢
      exact ih h

theorem envGet_mono {e1 e2 : Env} {n : List Char} {v : Int} (h : envLe e1 e2)
    (hg : envGet e1 n = some v) : envGet e2 n = some v := by
  obtain ⟨r, rfl⟩ := h
  exact envGet_append_some r hg

theorem envGet_isSome_mono {e1 e2 : Env} {n : List Char} (h : envLe e1 e2)
    (hg : (envGet e1 n).isSome = true) : (envGet e2 n).isSome = true := by
  obtain ⟨v, hv⟩ := Option.isSome_iff_exists.mp hg
  exact Option.isSome_iff_exists.mpr ⟨v, envGet_mono h hv⟩

theorem envGet_none_of_envLe {e1 e2 : Env} {n : List Char} (h : envLe e1 e2)
    (hg : envGet e2 n = none) : envGet e1 n = none := by
  cases he : envGet e1 n with
  | none => rfl
  | some v => rw [envGet_mono h he] at hg; cases hg

/-- Combined structural facts about one pass: the environment is only
extended; a no-change pass returns it unchanged; a changing pass resolved
some previously unresolved gate output. -/
theorem scan_main {gs : List Gate} :
    ∀ {env env2 : Env} {ch : Bool}, scanGates gs env = .ok (env2, ch) →
      envLe env env2 ∧ (ch = false → env2 = env) ∧
      (ch = true → ∃ g, g ∈ gs ∧ envGet env g.out_sig = none ∧
        (envGet env2 g.out_sig).isSome = true) := by
  induction gs with
  | nil =>
    intro env env2 ch h
    simp only [scanGates] at h
    cases h
    exact ⟨envLe_refl _, fun _ => rfl, fun hc => by cases hc⟩
  | cons g gs ih =>
    intro env env2 ch h
    simp only [scanGates] at h
    split at h
    · obtain ⟨hle, hfa, htr⟩ := ih h
      refine ⟨hle, hfa, fun hc => ?_⟩
      obtain ⟨g0, hmem, hg0⟩ := htr hc
      exact ⟨g0, List.mem_cons_of_mem _ hmem, hg0⟩
    · next h1 =>
      split at h
      · split at h
        · cases h
        · next v he =>
          split at h
          · cases h
          · next env3 ch3 hs =>
            cases h
            have habs : envGet env g.out_sig = none :=
              Option.not_isSome_iff_eq_none.mp h1
            have hstep : envLe env (dictInsert env g.out_sig v) :=
              ⟨[(g.out_sig, v)], dictInsert_absent _ _ _ habs⟩
            obtain ⟨hle, -, -⟩ := ih hs
            refine ⟨envLe_trans hstep hle, fun hc => Bool.noConfusion hc, fun _ => ?_⟩
            refine ⟨g, List.mem_cons_self _ _, habs, envGet_isSome_mono hle ?_⟩
            rw [envGet_dictInsert]
            simp
      · obtain ⟨hle, hfa, htr⟩ := ih h
        refine ⟨hle, hfa, fun hc => ?_⟩
        obtain ⟨g0, hmem, hg0⟩ := htr hc
        exact ⟨g0, List.mem_cons_of_mem _ hmem, hg0⟩

/-- A pass only extends the environment. -/
theorem scan_le {gs : List Gate} {env env2 : Env} {ch : Bool}
    (h : scanGates gs env = .ok (env2, ch)) : envLe env env2 :=
  (scan_main h).1

/-- A pass that reports no change leaves the environment untouched. -/
theorem scan_false_eq {gs : List Gate} {env env2 : Env}
    (h : scanGates gs env = .ok (env2, false)) : env2 = env :=
  (scan_main h).2.1 rfl

/-- A pass that reports a change resolved at least one previously
unresolved gate output. -/
theorem scan_true_progress {gs : List Gate} {env env2 : Env}
    (h : scanGates gs env = .ok (env2, true)) :
    ∃ g, g ∈ gs ∧ envGet env g.out_sig = none ∧
      (envGet env2 g.out_sig).isSome = true :=
  (scan_main h).2.2 rfl

/-- Number of gates in the list whose output is still unresolved in `env`
(the termination measure of the fixed-point loop: each changing pass
strictly decreases it). -/
def unresolvedCount (env : Env) : List Gate → Nat
  | [] => 0
  | g :: gs =>
    (if (envGet env g.out_sig).isSome then 0 else 1) + unresolvedCount env gs

theorem unresolvedCount_mono {e1 e2 : Env}
    (h : ∀ d, (envGet e1 d).isSome = true → (envGet e2 d).isSome = true) :
    ∀ gs, unresolvedCount e2 gs ≤ unresolvedCount e1 gs := by
  intro gs
  induction gs with
  | nil => simp [unresolvedCount]
  | cons g gs ih =>
    simp only [unresolvedCount]
    by_cases h1 : (envGet e1 g.out_sig).isSome
    · rw [if_pos h1, if_pos (h _ h1)]
      omega
    · rw [if_neg h1]
      by_cases h2 : (envGet e2 g.out_sig).isSome
      · rw [if_pos h2]; omega
      · rw [if_neg h2]; omega

theorem unresolvedCount_strict {e1 e2 : Env}
    (h : ∀ d, (envGet e1 d).isSome = true → (envGet e2 d).isSome = true) :
    ∀ gs, (∃ g, g ∈ gs ∧ envGet e1 g.out_sig = none ∧ (envGet e2 g.out_sig).isSome = true) →
      unresolvedCount e2 gs < unresolvedCount e1 gs := by
  intro gs
  induction gs with
  | nil => rintro ⟨g, hg, -⟩; cases hg
  | cons g gs ih =>
    rintro ⟨g0, hmem, hnone, hsome⟩
    rcases List.mem_cons.mp hmem with heq | htail
    · subst heq
      simp only [unresolvedCount]
      rw [if_pos hsome, if_neg (by simp [hnone])]
      have := unresolvedCount_mono h gs
      omega
    · simp only [unresolvedCount]
      have hlt := ih ⟨g0, htail, hnone, hsome⟩
      by_cases h1 : (envGet e1 g.out_sig).isSome
      · rw [if_pos h1, if_pos (h _ h1)]
        omega
      · rw [if_neg h1]
        by_cases h2 : (envGet e2 g.out_sig).isSome
        · rw [if_pos h2]; omega
        · rw [if_neg h2]; omega

/-- A changing pass strictly decreases the number of unresolved gates. -/
theorem scan_decreases {gates : List Gate} {env env2 : Env}
    (h : scanGates gates env = .ok (env2, true)) :
    unresolvedCount env2 gates < unresolvedCount env gates := by
  have hle := scan_le h
  exact unresolvedCount_strict (fun d => envGet_isSome_mono hle) gates
    (scan_true_progress h)

/-! ### The fixed-point loop (`while changed_flag: ...`) -/

/-- The `while changed_flag` loop of `simulate`: keep scanning the gate
list until a full pass makes no change; exceptions from `eval_gate`
propagate out. -/
def fixLoop (gates : List Gate) (env : Env) : Except SimError Env :=
  match h : scanGates gates env with
  | .error e => .error e
  | .ok (env2, false) => .ok env2
  | .ok (env2, true) => fixLoop gates env2
termination_by unresolvedCount env gates
decreasing_by exact scan_decreases h

/-- Fuel-counted version of the loop, used to state the pass bound: with
`n` units of fuel at most `n` passes run, and `none` is returned if the
loop is still running when the fuel is exhausted. -/
def fixFuel : Nat → List Gate → Env → Option (Except SimError Env)
  | 0, _, _ => none
  | fuel + 1, gates, env =>
    match scanGates gates env with
    | .error e => some (.error e)
    | .ok (env2, false) => some (.ok env2)
    | .ok (env2, true) => fixFuel fuel gates env2

/-! ### The evaluator (`simulate`) -/

/-- A waveform map: signal name to the list of sampled values so far.
Stated about only through `wfGet`, because the Python original is a dict
whose key order (inherited from a set union) is unspecified. -/
abbrev Wf := List (List Char × List Int)

/-- Waveform map lookup. -/
def wfGet : Wf → List Char → Option (List Int)
  | [], _ => none
  | (k, l) :: rest, n => if k = n then some l else wfGet rest n

/-- `waveform_map[sig].append(x)`. -/
def wfAppend (wf : Wf) (sig : List Char) (x : Int) : Wf :=
  wf.map (fun kv => if kv.1 = sig then (kv.1, kv.2 ++ [x]) else kv)

/-- The sampling loop `for sig in input_signals + output_signals:
waveform_map[sig].append(signal_env.get(sig, 0))`. -/
def sampleStep (sigs : List (List Char)) (env : Env) (wf : Wf) : Wf :=
  sigs.foldl (fun w sig => wfAppend w sig ((envGet env sig).getD 0)) wf

/-- Keep one copy of each name (set semantics for `all_nodes`). -/
def dedupNames : List (List Char) → List (List Char)
  | [] => []
  | x :: xs => if x ∈ dedupNames xs then dedupNames xs else x :: dedupNames xs

/-- `all_nodes = set(inputs) | {g[0] for g in gates} | set(outputs)`. -/
def allNodes (circuit : Circuit) : List (List Char) :=
  dedupNames (circuit.inputs ++ circuit.gates.map (·.out_sig) ++ circuit.outputs)

/-- One stimulus step of `simulate`: seed the environment from the input
vector, run the fixed-point loop, then sample `inputs + outputs` into the
waveform map (unresolved names sample as 0). -/
def simStep (circuit : Circuit) (wf : Wf) (td : Int × List Int) : Except SimError Wf :=
  match fixLoop circuit.gates (envSeed circuit.inputs td.2) with
  | .error e => .error e
  | .ok envF => .ok (sampleStep (circuit.inputs ++ circuit.outputs) envF wf)

/-- The `for _, input_values in stimuli_data` loop. -/
def simFold (circuit : Circuit) : List (Int × List Int) → Wf → Except SimError Wf
  | [], wf => .ok wf
  | td :: rest, wf =>
    match simStep circuit wf td with
    | .error e => .error e
    | .ok wf2 => simFold circuit rest wf2

/-- `simulate`: waveform map with one (initially empty) entry per node,
then one evaluation round per stimulus step. -/
def simulate (circuit : Circuit) : Except SimError Wf :=
  simFold circuit circuit.stimulus ((allNodes circuit).map (fun n => (n, ([] : List Int))))

/-! ### Properties of the fixed-point loop -/

theorem fixLoop_error {gates : List Gate} {env : Env} {e : SimError}
    (h : scanGates gates env = .error e) : fixLoop gates env = .error e := by
  rw [fixLoop]
  split
  · next e2 heq => rw [h] at heq; cases heq; rfl
  · next env2 heq => rw [h] at heq; cases heq
  · next env2 heq => rw [h] at heq; cases heq

theorem fixLoop_done {gates : List Gate} {env env2 : Env}
    (h : scanGates gates env = .ok (env2, false)) : fixLoop gates env = .ok env2 := by
  rw [fixLoop]
  split
  · next e2 heq => rw [h] at heq; cases heq
  · next env3 heq => rw [h] at heq; cases heq; rfl
  · next env3 heq => rw [h] at heq; cases heq

theorem fixLoop_step {gates : List Gate} {env env2 : Env}
    (h : scanGates gates env = .ok (env2, true)) :
    fixLoop gates env = fixLoop gates env2 := by
  rw [fixLoop]
  split
  · next e2 heq => rw [h] at heq; cases heq
  · next env3 heq => rw [h] at heq; cases heq
  · next env3 heq => rw [h] at heq; cases heq; rfl

/-- Any property preserved by one pass carries from the seed environment
to the result of the loop. -/
theorem fixLoop_inv (gates : List Gate) (P : Env → Prop)
    (hstep : ∀ env env2 ch, P env → scanGates gates env = .ok (env2, ch) → P env2) :
    ∀ n env F, unresolvedCount env gates ≤ n → P env →
      fixLoop gates env = .ok F → P F := by
  intro n
  induction n with
  | zero =>
    intro env F hle hp hfl
    cases hscan : scanGates gates env with
    | error e => rw [fixLoop_error hscan] at hfl; cases hfl
    | ok r =>
      obtain ⟨env2, ch⟩ := r
      cases ch with
      | false =>
        rw [fixLoop_done hscan] at hfl
        cases hfl
        exact hstep _ _ _ hp hscan
      | true => exact absurd (scan_decreases hscan) (by omega)
  | succ n ih =>
    intro env F hle hp hfl
    cases hscan : scanGates gates env with
    | error e => rw [fixLoop_error hscan] at hfl; cases hfl
    | ok r =>
      obtain ⟨env2, ch⟩ := r
      cases ch with
      | false =>
        rw [fixLoop_done hscan] at hfl
        cases hfl
        exact hstep _ _ _ hp hscan
      | true =>
        rw [fixLoop_step hscan] at hfl
        have hlt := scan_decreases hscan
        exact ih env2 F (by omega) (hstep _ _ _ hp hscan) hfl

theorem fixLoop_invariant (gates : List Gate) (P : Env → Prop)
    (hstep : ∀ env env2 ch, P env → scanGates gates env = .ok (env2, ch) → P env2)
    {env F : Env} (hp : P env) (hfl : fixLoop gates env = .ok F) : P F :=
  fixLoop_inv gates P hstep (unresolvedCount env gates) env F le_rfl hp hfl

/-- The loop only extends the seed environment. -/
theorem fixLoop_le {gates : List Gate} {env F : Env}
    (hfl : fixLoop gates env = .ok F) : envLe env F :=
  fixLoop_invariant gates (envLe env)
    (fun _ _ _ hp hscan => envLe_trans hp (scan_le hscan)) (envLe_refl env) hfl

theorem fixLoop_fixed_aux (gates : List Gate) :
    ∀ n env F, unresolvedCount env gates ≤ n → fixLoop gates env = .ok F →
      scanGates gates F = .ok (F, false) := by
  intro n
  induction n with
  | zero =>
    intro env F hle hfl
    cases hscan : scanGates gates env with
    | error e => rw [fixLoop_error hscan] at hfl; cases hfl
    | ok r =>
      obtain ⟨env2, ch⟩ := r
      cases ch with
      | false =>
        rw [fixLoop_done hscan] at hfl
        cases hfl
        have heq := scan_false_eq hscan
        subst heq
        exact hscan
      | true => exact absurd (scan_decreases hscan) (by omega)
  | succ n ih =>
    intro env F hle hfl
    cases hscan : scanGates gates env with
    | error e => rw [fixLoop_error hscan] at hfl; cases hfl
    | ok r =>
      obtain ⟨env2, ch⟩ := r
      cases ch with
      | false =>
        rw [fixLoop_done hscan] at hfl
        cases hfl
        have heq := scan_false_eq hscan
        subst heq
        exact hscan
      | true =>
        rw [fixLoop_step hscan] at hfl
        have hlt := scan_decreases hscan
        exact ih env2 F (by omega) hfl

/-- The loop result is a true fixed point: one more pass over it makes no
change. -/
theorem fixLoop_fixed {gates : List Gate} {env F : Env}
    (hfl : fixLoop gates env = .ok F) : scanGates gates F = .ok (F, false) :=
  fixLoop_fixed_aux gates (unresolvedCount env gates) env F le_rfl hfl

/-- Extra fuel never changes an answer the fuelled loop already gives. -/
theorem fixFuel_mono : ∀ (fuel m : Nat) (gates : List Gate) (env : Env)
    (r : Except SimError Env), fuel ≤ m → fixFuel fuel gates env = some r →
    fixFuel m gates env = some r := by
  intro fuel
  induction fuel with
  | zero =>
    intro m gates env r _ h
    simp [fixFuel] at h
  | succ fuel ih =>
    intro m gates env r hle h
    obtain ⟨m2, rfl⟩ : ∃ m2, m = m2 + 1 := ⟨m - 1, by omega⟩
    cases hscan : scanGates gates env with
    | error e =>
      simp only [fixFuel, hscan] at h ⊢
      exact h
    | ok res =>
      obtain ⟨env2, ch⟩ := res
      cases ch with
      | false =>
        simp only [fixFuel, hscan] at h ⊢
        exact h
      | true =>
        simp only [fixFuel, hscan] at h ⊢
        exact ih m2 gates env2 r (by omega) h

/-- With one unit of fuel per unresolved gate output plus one final
no-change pass, the fuelled loop finishes and returns exactly what the
unbounded `while` loop returns. -/
theorem fixFuel_reaches (gates : List Gate) :
    ∀ n env, unresolvedCount env gates ≤ n →
      fixFuel (n + 1) gates env = some (fixLoop gates env) := by
  intro n
  induction n with
  | zero =>
    intro env hle
    simp only [fixFuel]
    cases hscan : scanGates gates env with
    | error e => rw [fixLoop_error hscan]
    | ok r =>
      obtain ⟨env2, ch⟩ := r
      cases ch with
      | false => rw [fixLoop_done hscan]
      | true => exact absurd (scan_decreases hscan) (by omega)
  | succ n ih =>
    intro env hle
    simp only [fixFuel]
    cases hscan : scanGates gates env with
    | error e => rw [fixLoop_error hscan]
    | ok r =>
      obtain ⟨env2, ch⟩ := r
      cases ch with
      | false => rw [fixLoop_done hscan]
      | true =>
        have hlt := scan_decreases hscan
        rw [fixLoop_step hscan]
        exact ih env2 (by omega)

/-- At most one unresolved gate output per listed gate. -/
theorem unresolvedCount_le_length (env : Env) (gates : List Gate) :
    unresolvedCount env gates ≤ gates.length := by
  induction gates with
  | nil => simp [unresolvedCount]
  | cons g gs ih =>
    simp only [unresolvedCount, List.length_cons]
    by_cases h : (envGet env g.out_sig).isSome
    · rw [if_pos h]; omega
    · rw [if_neg h]; omega

/-! ### Order-independent characterisation of the fixed point -/

/-- `Derives gates env0 n v`: signal `n` can be assigned value `v` from
the seed environment `env0` — either seeded, or produced by a gate of the
list (one whose output is not seeded) all of whose operands are
derivable.  The definition only uses gate-list membership, so it is
invariant under permutations of the gate list. -/
inductive Derives (gates : List Gate) (env0 : Env) : List Char → Int → Prop where
  | seed (n : List Char) (v : Int) :
      envGet env0 n = some v → Derives gates env0 n v
  | gate (g : Gate) (vs : List Int) (v : Int) :
      g ∈ gates → envGet env0 g.out_sig = none →
      g.params.length = vs.length →
      (∀ pv ∈ g.params.zip vs, Derives gates env0 pv.1 pv.2) →
      eval_gate g.gate_kind vs = .ok v →
      Derives gates env0 g.out_sig v

/-- When the gate outputs are pairwise distinct, gates are determined by
their output name. -/
theorem nodup_out_inj {gates : List Gate}
    (h : (gates.map (·.out_sig)).Nodup) :
    ∀ {g1 g2 : Gate}, g1 ∈ gates → g2 ∈ gates → g1.out_sig = g2.out_sig → g1 = g2 := by
  induction gates with
  | nil => intro g1 g2 h1 _ _; cases h1
  | cons g gs ih =>
    simp only [List.map_cons, List.nodup_cons] at h
    obtain ⟨hnotin, hnd⟩ := h
    intro g1 g2 h1 h2 heq
    rcases List.mem_cons.mp h1 with rfl | h1t
    · rcases List.mem_cons.mp h2 with rfl | h2t
      · rfl
      · exact absurd (heq ▸ List.mem_map_of_mem (·.out_sig) h2t) hnotin
    · rcases List.mem_cons.mp h2 with rfl | h2t
      · exact absurd (heq ▸ List.mem_map_of_mem (·.out_sig) h1t) hnotin
      · exact ih hnd h1t h2t heq

theorem mem_zip_getElem {α β : Type} :
    ∀ (l1 : List α) (l2 : List β) (i : Nat) (h1 : i < l1.length) (h2 : i < l2.length),
      (l1[i], l2[i]) ∈ l1.zip l2 := by
  intro l1
  induction l1 with
  | nil => intro l2 i h1; cases h1
  | cons x xs ih =>
    intro l2 i h1 h2
    cases l2 with
    | nil => cases h2
    | cons y ys =>
      cases i with
      | zero => exact List.mem_cons_self _ _
      | succ i =>
        exact List.mem_cons_of_mem _
          (ih ys i (Nat.lt_of_succ_lt_succ h1) (Nat.lt_of_succ_lt_succ h2))

theorem zip_map_self_mem {α β : Type} (f : α → β) :
    ∀ {l : List α} {pv : α × β}, pv ∈ l.zip (l.map f) → pv.1 ∈ l ∧ pv.2 = f pv.1 := by
  intro l
  induction l with
  | nil => intro pv h; cases h
  | cons x xs ih =>
    intro pv h
    rcases List.mem_cons.mp h with rfl | ht
    · exact ⟨List.mem_cons_self _ _, rfl⟩
    · obtain ⟨ha, hb⟩ := ih ht
      exact ⟨List.mem_cons_of_mem _ ha, hb⟩

/-- Inversion for `Derives` (the conclusion index of the gate rule is a
projection, so this is done once by hand). -/
theorem derives_inv {gates : List Gate} {env0 : Env} {n : List Char} {v : Int}
    (h : Derives gates env0 n v) :
    envGet env0 n = some v ∨
      ∃ g vs, g ∈ gates ∧ g.out_sig = n ∧ envGet env0 n = none ∧
        g.params.length = vs.length ∧
        (∀ pv ∈ g.params.zip vs, Derives gates env0 pv.1 pv.2) ∧
        eval_gate g.gate_kind vs = .ok v := by
  cases h with
  | seed _ _ hs => exact Or.inl hs
  | gate g vs v hg hnone hlen hps hev =>
    exact Or.inr ⟨g, vs, hg, rfl, hnone, hlen, hps, hev⟩

/-- With pairwise distinct gate outputs, a signal derives at most one
value. -/
theorem derives_functional {gates : List Gate} {env0 : Env}
    (hnd : (gates.map (·.out_sig)).Nodup) :
    ∀ {n : List Char} {v w : Int},
      Derives gates env0 n v → Derives gates env0 n w → v = w := by
  intro n v w h1
  induction h1 generalizing w with
  | seed n v hs =>
    intro h2
    rcases derives_inv h2 with hs2 | ⟨g2, vs2, hg2, hout, hnone2, hrest⟩
    · rw [hs] at hs2; cases hs2; rfl
    · rw [hs] at hnone2; cases hnone2
  | gate g vs v hg hnone hlen hps hev ih =>
    intro h2
    rcases derives_inv h2 with hs2 | ⟨g2, vs2, hg2, hout, hnone2, hlen2, hps2, hev2⟩
    · rw [hs2] at hnone; cases hnone
    · have hg2g : g2 = g := nodup_out_inj hnd hg2 hg hout
      rw [hg2g] at hlen2 hps2 hev2
      have hlen12 : vs.length = vs2.length := by omega
      have hvs : vs = vs2 := by
        apply List.ext_getElem hlen12
        intro i hi1 hi2
        have hip : i < g.params.length := by omega
        have hpair1 : (g.params[i], vs[i]) ∈ g.params.zip vs :=
          mem_zip_getElem _ _ i hip hi1
        have hpair2 : (g.params[i], vs2[i]) ∈ g.params.zip vs2 :=
          mem_zip_getElem _ _ i hip hi2
        exact ih _ hpair1 (hps2 _ hpair2)
      rw [← hvs] at hev2
      rw [hev] at hev2
      cases hev2
      rfl

/-- Invariant carried through the loop for soundness: the environment
extends the seed and every binding in it is derivable. -/
def stepSound (gates : List Gate) (env0 env : Env) : Prop :=
  envLe env0 env ∧ ∀ n v, envGet env n = some v → Derives gates env0 n v

theorem scan_preserves_sound {gates : List Gate} {env0 : Env} :
    ∀ {gs : List Gate}, (∀ g ∈ gs, g ∈ gates) →
      ∀ {env env2 : Env} {ch : Bool}, stepSound gates env0 env →
        scanGates gs env = .ok (env2, ch) → stepSound gates env0 env2 := by
  intro gs
  induction gs with
  | nil =>
    intro _ env env2 ch hs h
    simp only [scanGates] at h
    cases h
    exact hs
  | cons g gs ih =>
    intro hsub env env2 ch hs h
    have hsubt : ∀ g0 ∈ gs, g0 ∈ gates := fun g0 hg0 => hsub g0 (List.mem_cons_of_mem _ hg0)
    simp only [scanGates] at h
    split at h
    · exact ih hsubt hs h
    · next h1 =>
      split at h
      · next h2 =>
        split at h
        · cases h
        · next v he =>
          split at h
          · cases h
          · next env3 ch3 hrec =>
            cases h
            refine ih hsubt ?_ hrec
            have habs : envGet env g.out_sig = none :=
              Option.not_isSome_iff_eq_none.mp h1
            constructor
            · exact envLe_trans hs.1 ⟨[(g.out_sig, v)], dictInsert_absent _ _ _ habs⟩
            · intro n w hw
              rw [envGet_dictInsert] at hw
              by_cases hno : g.out_sig = n
              · rw [if_pos hno] at hw
                cases hw
                subst hno
                refine Derives.gate g (g.params.map (fun p => (envGet env p).getD 0)) _
                  (hsub g (List.mem_cons_self _ _))
                  (envGet_none_of_envLe hs.1 habs)
                  (List.length_map _ _).symm ?_ he
                intro pv hpv
                obtain ⟨hmem, hval⟩ := zip_map_self_mem _ hpv
                have hps := List.all_eq_true.mp h2 pv.1 hmem
                obtain ⟨u, hu⟩ := Option.isSome_iff_exists.mp hps
                have : pv.2 = u := by rw [hval, hu]; rfl
                rw [this]
                exact hs.2 _ _ hu
              · rw [if_neg hno] at hw
                exact hs.2 _ _ hw
      · exact ih hsubt hs h

/-- Soundness at the loop result. -/
theorem fixLoop_sound {gates : List Gate} {env0 F : Env}
    (hfl : fixLoop gates env0 = .ok F) : stepSound gates env0 F :=
  fixLoop_invariant gates (stepSound gates env0)
    (fun _ _ _ hp hscan => scan_preserves_sound (fun _ hg => hg) hp hscan)
    ⟨envLe_refl env0, fun n v h => Derives.seed n v h⟩ hfl

/-- At a no-change fixed point, every gate whose operands are all bound
has its output bound. -/
theorem scan_saturated {gs : List Gate} :
    ∀ {env : Env}, scanGates gs env = .ok (env, false) →
      ∀ g ∈ gs, g.params.all (fun p => (envGet env p).isSome) = true →
        (envGet env g.out_sig).isSome = true := by
  induction gs with
  | nil => intro env _ g hg; cases hg
  | cons g0 gs ih =>
    intro env h g hg hall
    simp only [scanGates] at h
    split at h
    · next h1 =>
      rcases List.mem_cons.mp hg with rfl | hgt
      · exact h1
      · exact ih h g hgt hall
    · next h1 =>
      split at h
      · next h2 =>
        split at h
        · cases h
        · next v he =>
          split at h
          · cases h
          · next env3 ch3 hrec => cases h
      · next h2 =>
        rcases List.mem_cons.mp hg with rfl | hgt
        · exact absurd hall h2
        · exact ih h g hgt hall

/-- Completeness: everything derivable is bound in the loop result (gate
outputs must be pairwise distinct so that values are unambiguous). -/
theorem derives_complete {gates : List Gate} {env0 F : Env}
    (hnd : (gates.map (·.out_sig)).Nodup)
    (hfl : fixLoop gates env0 = .ok F) :
    ∀ {n : List Char} {v : Int}, Derives gates env0 n v → envGet F n = some v := by
  have hfix := fixLoop_fixed hfl
  have hsound := fixLoop_sound hfl
  intro n v h
  induction h with
  | seed n v hs => exact envGet_mono hsound.1 hs
  | gate g vs v hg hnone hlen hps hev ih =>
    have hall : g.params.all (fun p => (envGet F p).isSome) = true := by
      rw [List.all_eq_true]
      intro p hp
      obtain ⟨i, hip, rfl⟩ := List.mem_iff_getElem.mp hp
      have hiv : i < vs.length := by omega
      have hpair : (g.params[i], vs[i]) ∈ g.params.zip vs :=
        mem_zip_getElem _ _ i hip hiv
      rw [ih _ hpair]
      rfl
    have hsome := scan_saturated hfix g hg hall
    obtain ⟨w, hw⟩ := Option.isSome_iff_exists.mp hsome
    have hdw : Derives gates env0 g.out_sig w := hsound.2 _ _ hw
    have hvw : v = w :=
      derives_functional hnd (Derives.gate g vs v hg hnone hlen hps hev) hdw
    rw [hw, hvw]

/-- The loop result, as a mapping, is exactly derivability. -/
theorem fixLoop_lookup_iff {gates : List Gate} {env0 F : Env}
    (hnd : (gates.map (·.out_sig)).Nodup)
    (hfl : fixLoop gates env0 = .ok F) (n : List Char) (v : Int) :
    envGet F n = some v ↔ Derives gates env0 n v :=
  ⟨fun h => (fixLoop_sound hfl).2 n v h, fun h => derives_complete hnd hfl h⟩

/-- Derivability only depends on which gates are in the list. -/
theorem derives_congr_mem {gates1 gates2 : List Gate} {env0 : Env}
    (hmem : ∀ g, g ∈ gates1 → g ∈ gates2) :
    ∀ {n : List Char} {v : Int}, Derives gates1 env0 n v → Derives gates2 env0 n v := by
  intro n v h
  induction h with
  | seed n v hs => exact .seed n v hs
  | gate g vs v hg hnone hlen hps hev ih =>
    exact .gate g vs v (hmem g hg) hnone hlen (fun pv hpv => ih pv hpv) hev

/-- Two loop runs over gate lists with the same members produce the same
environment, viewed as a mapping. -/
theorem fixLoop_pointwise {gates1 gates2 : List Gate} {env0 F1 F2 : Env}
    (hmem : ∀ g, g ∈ gates1 ↔ g ∈ gates2)
    (hnd1 : (gates1.map (·.out_sig)).Nodup)
    (hnd2 : (gates2.map (·.out_sig)).Nodup)
    (h1 : fixLoop gates1 env0 = .ok F1) (h2 : fixLoop gates2 env0 = .ok F2) :
    ∀ n, envGet F1 n = envGet F2 n := by
  intro n
  cases hv : envGet F1 n with
  | some v =>
    have hd := (fixLoop_lookup_iff hnd1 h1 n v).mp hv
    exact ((fixLoop_lookup_iff hnd2 h2 n v).mpr
      (derives_congr_mem (fun g => (hmem g).mp) hd)).symm
  | none =>
    cases hw : envGet F2 n with
    | none => rfl
    | some w =>
      have hd := (fixLoop_lookup_iff hnd2 h2 n w).mp hw
      have := (fixLoop_lookup_iff hnd1 h1 n w).mpr
        (derives_congr_mem (fun g => (hmem g).mpr) hd)
      rw [hv] at this
      cases this

/-! ### Well-formed gates never make `eval_gate` raise -/

/-- A gate is well formed when its kind is one of the four known kinds and
it has at least the arity its truth function indexes (extra operands are
ignored by the source, which only reads `args[0]`/`args[1]`). -/
def wellFormedGate (g : Gate) : Bool :=
  if g.gate_kind = "AND".data ∨ g.gate_kind = "OR".data ∨ g.gate_kind = "XOR".data then
    decide (2 ≤ g.params.length)
  else if g.gate_kind = "NOT".data then decide (1 ≤ g.params.length)
  else false

theorem eval_gate_ok_of_wf {g : Gate} (hwf : wellFormedGate g = true)
    {args : List Int} (hlen : args.length = g.params.length) :
    ∃ v, eval_gate g.gate_kind args = .ok v := by
  unfold wellFormedGate at hwf
  unfold eval_gate
  by_cases hA : g.gate_kind = "AND".data
  · rw [if_pos (Or.inl hA)] at hwf
    have h2 : 2 ≤ g.params.length := of_decide_eq_true hwf
    rw [if_pos hA]
    cases args with
    | nil => simp at hlen; omega
    | cons a t =>
      cases t with
      | nil => simp at hlen; omega
      | cons b r => exact ⟨Int.land a b, rfl⟩
  · by_cases hO : g.gate_kind = "OR".data
    · rw [if_pos (Or.inr (Or.inl hO))] at hwf
      have h2 : 2 ≤ g.params.length := of_decide_eq_true hwf
      rw [if_neg hA, if_pos hO]
      cases args with
      | nil => simp at hlen; omega
      | cons a t =>
        cases t with
        | nil => simp at hlen; omega
        | cons b r => exact ⟨Int.lor a b, rfl⟩
    · by_cases hN : g.gate_kind = "NOT".data
      · have hX : ¬ g.gate_kind = "XOR".data := by
          rw [hN]; decide
        rw [if_neg (by rintro (h | h | h) <;> [exact hA h; exact hO h; exact hX h]),
          if_pos hN] at hwf
        have h2 : 1 ≤ g.params.length := of_decide_eq_true hwf
        rw [if_neg hA, if_neg hO, if_pos hN]
        cases args with
        | nil => simp at hlen; omega
        | cons a t => exact ⟨1 - a, rfl⟩
      · by_cases hX : g.gate_kind = "XOR".data
        · rw [if_pos (Or.inr (Or.inr hX))] at hwf
          have h2 : 2 ≤ g.params.length := of_decide_eq_true hwf
          rw [if_neg hA, if_neg hO, if_neg hN, if_pos hX]
          cases args with
          | nil => simp at hlen; omega
          | cons a t =>
            cases t with
            | nil => simp at hlen; omega
            | cons b r => exact ⟨Int.xor a b, rfl⟩
        · rw [if_neg (by rintro (h | h | h) <;> [exact hA h; exact hO h; exact hX h]),
            if_neg hN] at hwf
          cases hwf

/-- A pass over well-formed gates never raises. -/
theorem scan_ok {gs : List Gate} (hwf : ∀ g ∈ gs, wellFormedGate g = true) :
    ∀ env, ∃ r, scanGates gs env = .ok r := by
  induction gs with
  | nil => exact fun env => ⟨(env, false), rfl⟩
  | cons g gs ih =>
    have hwft : ∀ g2 ∈ gs, wellFormedGate g2 = true :=
      fun g2 hg2 => hwf g2 (List.mem_cons_of_mem _ hg2)
    intro env
    simp only [scanGates]
    split
    · exact ih hwft env
    · split
      · have hlen : (g.params.map (fun p => (envGet env p).getD 0)).length = g.params.length :=
          List.length_map _ _
        obtain ⟨v, hv⟩ := eval_gate_ok_of_wf (hwf g (List.mem_cons_self _ _)) hlen
        simp only [hv]
        obtain ⟨r, hr⟩ := ih hwft (dictInsert env g.out_sig v)
        obtain ⟨env2, ch⟩ := r
        simp only [hr]
        exact ⟨(env2, true), rfl⟩
      · exact ih hwft env

/-- The whole fixed-point loop never raises on well-formed gates. -/
theorem fixLoop_ok {gates : List Gate} (hwf : ∀ g ∈ gates, wellFormedGate g = true) :
    ∀ env, ∃ F, fixLoop gates env = .ok F := by
  have key : ∀ n env, unresolvedCount env gates ≤ n → ∃ F, fixLoop gates env = .ok F := by
    intro n
    induction n with
    | zero =>
      intro env hle
      obtain ⟨r, hr⟩ := scan_ok hwf env
      obtain ⟨env2, ch⟩ := r
      cases ch with
      | false => exact ⟨env2, fixLoop_done hr⟩
      | true => exact absurd (scan_decreases hr) (by omega)
    | succ n ih =>
      intro env hle
      obtain ⟨r, hr⟩ := scan_ok hwf env
      obtain ⟨env2, ch⟩ := r
      cases ch with
      | false => exact ⟨env2, fixLoop_done hr⟩
      | true =>
        have := scan_decreases hr
        obtain ⟨F, hF⟩ := ih env2 (by omega)
        exact ⟨F, (fixLoop_step hr).trans hF⟩
  exact fun env => key _ env le_rfl

/-! ### Waveform-map lemmas -/

/-- Number of occurrences of a name in a list of names (how many times a
signal is sampled per stimulus step). -/
def countName (n : List Char) : List (List Char) → Nat
  | [] => 0
  | x :: xs => (if x = n then 1 else 0) + countName n xs

theorem wfGet_wfAppend (wf : Wf) (sig : List Char) (x : Int) (n : List Char) :
    wfGet (wfAppend wf sig x) n =
      if sig = n then (wfGet wf n).map (fun l => l ++ [x]) else wfGet wf n := by
  induction wf with
  | nil => by_cases h : sig = n <;> simp [wfAppend, wfGet, h]
  | cons kv rest ih =>
    obtain ⟨k, l⟩ := kv
    simp only [wfAppend, List.map_cons]
    by_cases h1 : k = sig
    · simp only [if_pos h1]
      by_cases h2 : sig = n
      · have h3 : k = n := h1.trans h2
        simp only [wfGet, if_pos h3, if_pos h2]
        rfl
      · have h3 : ¬ k = n := fun hk => h2 (h1.symm.trans hk)
        simp only [wfGet, if_neg h3, if_neg h2]
        have := ih
        rw [show wfGet (List.map (fun kv => if kv.1 = sig then (kv.1, kv.2 ++ [x]) else kv) rest) n
            = wfGet (wfAppend rest sig x) n from rfl, this, if_neg h2]
    · simp only [if_neg h1]
      by_cases h2 : k = n
      · have h3 : ¬ sig = n := fun hs => h1 (h2.trans hs.symm)
        simp only [wfGet, if_pos h2, if_neg h3]
      · simp only [wfGet, if_neg h2]
        rw [show wfGet (List.map (fun kv => if kv.1 = sig then (kv.1, kv.2 ++ [x]) else kv) rest) n
            = wfGet (wfAppend rest sig x) n from rfl, ih]

/-- Effect of one sampling pass on one name: per occurrence in the
sampled list, one copy of `signal_env.get(name, 0)` is appended. -/
theorem wfGet_sampleStep (env : Env) :
    ∀ (sigs : List (List Char)) (wf : Wf) (n : List Char),
      wfGet (sampleStep sigs env wf) n =
        (wfGet wf n).map
          (fun l => l ++ List.replicate (countName n sigs) ((envGet env n).getD 0)) := by
  intro sigs
  induction sigs with
  | nil =>
    intro wf n
    simp only [sampleStep, List.foldl_nil, countName, List.replicate]
    cases wfGet wf n <;> simp
  | cons s sigs ih =>
    intro wf n
    have hstep : sampleStep (s :: sigs) env wf
        = sampleStep sigs env (wfAppend wf s ((envGet env s).getD 0)) := rfl
    rw [hstep, ih, wfGet_wfAppend]
    by_cases h : s = n
    · subst h
      simp only [countName, if_pos rfl]
      cases wfGet wf s <;>
        simp [List.replicate_succ, List.append_assoc, Nat.add_comm]
    · simp only [countName, if_neg h]
      simp

theorem mem_dedupNames :
    ∀ {l : List (List Char)} {x : List Char}, x ∈ dedupNames l ↔ x ∈ l := by
  intro l
  induction l with
  | nil => intro x; simp [dedupNames]
  | cons y ys ih =>
    intro x
    simp only [dedupNames]
    by_cases h : y ∈ dedupNames ys
    · rw [if_pos h]
      have hy : y ∈ ys := ih.mp h
      constructor
      · exact fun hx => List.mem_cons_of_mem _ (ih.mp hx)
      · intro hx
        rcases List.mem_cons.mp hx with rfl | hx2
        · exact ih.mpr hy
        · exact ih.mpr hx2
    · rw [if_neg h]
      simp [List.mem_cons, ih]

theorem wfGet_init (nodes : List (List Char)) (n : List Char) :
    wfGet (nodes.map (fun m => (m, ([] : List Int)))) n =
      if n ∈ nodes then some [] else none := by
  induction nodes with
  | nil => simp [wfGet]
  | cons x xs ih =>
    simp only [List.map_cons, wfGet]
    by_cases h : x = n
    · subst h
      simp
    · rw [if_neg h, ih]
      have h2 : ¬ n = x := fun hh => h hh.symm
      by_cases h3 : n ∈ xs
      · simp [h3, List.mem_cons]
      · simp [h3, List.mem_cons, h2]

/-! ### 0/1 values are preserved by evaluation -/

/-- Every bound value is a logic level. -/
def env01 (env : Env) : Prop := ∀ n v, envGet env n = some v → v = 0 ∨ v = 1

theorem eval_gate_01 {kind : List Char} {args : List Int} {v : Int}
    (hargs : ∀ a ∈ args, a = 0 ∨ a = 1) (h : eval_gate kind args = .ok v) :
    v = 0 ∨ v = 1 := by
  unfold eval_gate at h
  split at h
  · split at h
    · next a b r =>
      cases h
      have ha := hargs a (by simp)
      have hb := hargs b (by simp)
      rcases ha with rfl | rfl <;> rcases hb with rfl | rfl <;> decide
    · cases h
  · split at h
    · split at h
      · next a b r =>
        cases h
        have ha := hargs a (by simp)
        have hb := hargs b (by simp)
        rcases ha with rfl | rfl <;> rcases hb with rfl | rfl <;> decide
      · cases h
    · split at h
      · split at h
        · next a r =>
          cases h
          have ha := hargs a (by simp)
          rcases ha with rfl | rfl <;> decide
        · cases h
      · split at h
        · split at h
          · next a b r =>
            cases h
            have ha := hargs a (by simp)
            have hb := hargs b (by simp)
            rcases ha with rfl | rfl <;> rcases hb with rfl | rfl <;> decide
          · cases h
        · cases h

theorem scan_preserves_01 : ∀ {gs : List Gate} {env env2 : Env} {ch : Bool},
    env01 env → scanGates gs env = .ok (env2, ch) → env01 env2 := by
  intro gs
  induction gs with
  | nil =>
    intro env env2 ch he h
    simp only [scanGates] at h
    cases h
    exact he
  | cons g gs ih =>
    intro env env2 ch he h
    simp only [scanGates] at h
    split at h
    · exact ih he h
    · split at h
      · split at h
        · cases h
        · next v hv =>
          split at h
          · cases h
          · next env3 ch3 hrec =>
            cases h
            refine ih ?_ hrec
            intro n w hn
            rw [envGet_dictInsert] at hn
            by_cases hkn : g.out_sig = n
            · rw [if_pos hkn] at hn
              cases hn
              refine eval_gate_01 ?_ hv
              intro a ha
              obtain ⟨p, hp, rfl⟩ := List.mem_map.mp ha
              cases hep : envGet env p with
              | none => simp [hep]
              | some u => simpa [hep] using he p u hep
            · rw [if_neg hkn] at hn
              exact he n w hn
      · exact ih he h

theorem fixLoop_01 {gates : List Gate} {env F : Env} (he : env01 env)
    (hfl : fixLoop gates env = .ok F) : env01 F :=
  fixLoop_invariant gates env01 (fun _ _ _ hp hs => scan_preserves_01 hp hs) he hfl

/-! ### The seed environment `dict(zip(input_signals, input_values))` -/

theorem envGet_dictFold_isSome (pairs : List (List Char × Int)) :
    ∀ (e : Env) (n : List Char),
      (envGet (pairs.foldl (fun e2 kv => dictInsert e2 kv.1 kv.2) e) n).isSome = true ↔
        (envGet e n).isSome = true ∨ n ∈ pairs.map Prod.fst := by
  induction pairs with
  | nil => intro e n; simp
  | cons kv rest ih =>
    intro e n
    simp only [List.foldl_cons, List.map_cons, List.mem_cons]
    rw [ih, envGet_dictInsert]
    by_cases h : kv.1 = n
    · simp [h]
    · have h2 : ¬ n = kv.1 := fun hh => h hh.symm
      simp [h, h2]

theorem envGet_dictFold_none (pairs : List (List Char × Int)) (e : Env) (n : List Char)
    (he : envGet e n = none) (hn : n ∉ pairs.map Prod.fst) :
    envGet (pairs.foldl (fun e2 kv => dictInsert e2 kv.1 kv.2) e) n = none := by
  rw [← Option.not_isSome_iff_eq_none]
  rw [envGet_dictFold_isSome]
  rintro (hs | hm)
  · rw [he] at hs; cases hs
  · exact hn hm

theorem env01_dictFold (pairs : List (List Char × Int)) :
    ∀ (e : Env), env01 e → (∀ pv ∈ pairs, pv.2 = 0 ∨ pv.2 = 1) →
      env01 (pairs.foldl (fun e2 kv => dictInsert e2 kv.1 kv.2) e) := by
  induction pairs with
  | nil => exact fun e he _ => he
  | cons kv rest ih =>
    intro e he hv
    simp only [List.foldl_cons]
    refine ih _ ?_ (fun pv hpv => hv pv (List.mem_cons_of_mem _ hpv))
    intro n v hn
    rw [envGet_dictInsert] at hn
    by_cases h : kv.1 = n
    · rw [if_pos h] at hn
      cases hn
      exact hv kv (List.mem_cons_self _ _)
    · rw [if_neg h] at hn
      exact he n v hn

theorem envSeed_none {inputs : List (List Char)} {values : List Int} {n : List Char}
    (h : n ∉ inputs) : envGet (envSeed inputs values) n = none := by
  refine envGet_dictFold_none _ _ _ rfl ?_
  intro hmem
  obtain ⟨pv, hpv, rfl⟩ := List.mem_map.mp hmem
  exact h (List.of_mem_zip hpv).1

theorem envSeed_isSome {inputs : List (List Char)} {values : List Int} {n : List Char}
    (hn : n ∈ inputs) (hlen : inputs.length ≤ values.length) :
    (envGet (envSeed inputs values) n).isSome = true := by
  unfold envSeed
  rw [envGet_dictFold_isSome]
  right
  rw [List.map_fst_zip _ _ hlen]
  exact hn

theorem envSeed_01 {inputs : List (List Char)} {values : List Int}
    (hv : ∀ v ∈ values, v = 0 ∨ v = 1) : env01 (envSeed inputs values) := by
  refine env01_dictFold _ _ (fun n v h => by cases h) ?_
  intro pv hpv
  exact hv pv.2 (List.of_mem_zip hpv).2

/-! ### Stuck gates stay unresolved -/

theorem scan_stuck {gates : List Gate} {g : Gate} {p : List Char}
    (hp : p ∈ g.params)
    (hpdest : ∀ g2 ∈ gates, g2.out_sig ≠ p)
    (huniq : ∀ g2 ∈ gates, g2.out_sig = g.out_sig → g2 = g) :
    ∀ {gs : List Gate}, (∀ g2 ∈ gs, g2 ∈ gates) →
      ∀ {env env2 : Env} {ch : Bool},
        envGet env p = none → envGet env g.out_sig = none →
        scanGates gs env = .ok (env2, ch) →
        envGet env2 p = none ∧ envGet env2 g.out_sig = none := by
  intro gs
  induction gs with
  | nil =>
    intro _ env env2 ch h1 h2 h
    simp only [scanGates] at h
    cases h
    exact ⟨h1, h2⟩
  | cons g2 gs ih =>
    intro hsub env env2 ch h1 h2 h
    have hsubt : ∀ g0 ∈ gs, g0 ∈ gates :=
      fun g0 hg0 => hsub g0 (List.mem_cons_of_mem _ hg0)
    simp only [scanGates] at h
    split at h
    · exact ih hsubt h1 h2 h
    · next hno =>
      split at h
      · next hall =>
        split at h
        · cases h
        · next v hv =>
          split at h
          · cases h
          · next env3 ch3 hrec =>
            cases h
            have hg2mem := hsub g2 (List.mem_cons_self _ _)
            have hd1 : g2.out_sig ≠ p := hpdest g2 hg2mem
            have hd2 : g2.out_sig ≠ g.out_sig := by
              intro heq
              have hgg : g2 = g := huniq g2 hg2mem heq
              subst hgg
              have := List.all_eq_true.mp hall p hp
              rw [h1] at this
              simp at this
            refine ih hsubt ?_ ?_ hrec
            · rw [envGet_dictInsert, if_neg hd1]; exact h1
            · rw [envGet_dictInsert, if_neg hd2]; exact h2
      · exact ih hsubt h1 h2 h

theorem fixLoop_stuck {gates : List Gate} {g : Gate} {p : List Char}
    (hp : p ∈ g.params)
    (hpdest : ∀ g2 ∈ gates, g2.out_sig ≠ p)
    (huniq : ∀ g2 ∈ gates, g2.out_sig = g.out_sig → g2 = g)
    {env F : Env} (h1 : envGet env p = none) (h2 : envGet env g.out_sig = none)
    (hfl : fixLoop gates env = .ok F) : envGet F g.out_sig = none :=
  (fixLoop_invariant gates
    (fun e => envGet e p = none ∧ envGet e g.out_sig = none)
    (fun _ _ _ hpr hs => scan_stuck hp hpdest huniq (fun _ h => h) hpr.1 hpr.2 hs)
    ⟨h1, h2⟩ hfl).2

/-! ### Structure of the stimulus loop -/

theorem simFold_ok {c : Circuit} (hwf : ∀ g ∈ c.gates, wellFormedGate g = true) :
    ∀ (stim : List (Int × List Int)) (wf : Wf), ∃ r, simFold c stim wf = .ok r := by
  intro stim
  induction stim with
  | nil => exact fun wf => ⟨wf, rfl⟩
  | cons td rest ih =>
    intro wf
    obtain ⟨F, hF⟩ := fixLoop_ok hwf (envSeed c.inputs td.2)
    obtain ⟨r, hr⟩ := ih (sampleStep (c.inputs ++ c.outputs) F wf)
    refine ⟨r, ?_⟩
    simp only [simFold, simStep, hF, hr]

/-- What the stimulus loop does to each entry of the waveform map: per
step and per occurrence of the name among the sampled names, it appends
`signal_env.get(name, 0)` for that step's final environment. -/
theorem simFold_shape {c : Circuit} :
    ∀ (stim : List (Int × List Int)) (wf r : Wf),
      simFold c stim wf = .ok r → ∀ n,
        (wfGet wf n = none → wfGet r n = none) ∧
        (∀ l, wfGet wf n = some l → ∃ l2, wfGet r n = some (l ++ l2) ∧
          l2.length = stim.length * countName n (c.inputs ++ c.outputs) ∧
          ∀ v ∈ l2, ∃ td F, td ∈ stim ∧
            fixLoop c.gates (envSeed c.inputs td.2) = .ok F ∧
            v = (envGet F n).getD 0) := by
  intro stim
  induction stim with
  | nil =>
    intro wf r h n
    simp only [simFold] at h
    cases h
    refine ⟨fun h2 => h2, fun l hl => ⟨[], by simpa using hl, by simp, by simp⟩⟩
  | cons td rest ih =>
    intro wf r h n
    simp only [simFold] at h
    split at h
    · cases h
    · next wf2 hstep =>
      simp only [simStep] at hstep
      split at hstep
      · cases hstep
      · next F hF =>
        cases hstep
        have key := ih _ r h n
        constructor
        · intro hnone
          refine key.1 ?_
          rw [wfGet_sampleStep, hnone]
          rfl
        · intro l hl
          have hl2 : wfGet (sampleStep (c.inputs ++ c.outputs) F wf) n =
              some (l ++ List.replicate (countName n (c.inputs ++ c.outputs))
                ((envGet F n).getD 0)) := by
            rw [wfGet_sampleStep, hl]
            rfl
          obtain ⟨l3, hr, hlen, hvals⟩ := key.2 _ hl2
          refine ⟨List.replicate (countName n (c.inputs ++ c.outputs))
            ((envGet F n).getD 0) ++ l3, ?_, ?_, ?_⟩
          · rw [hr, List.append_assoc]
          · rw [List.length_append, List.length_replicate, hlen, List.length_cons,
              Nat.succ_mul]
            omega
          · intro v hv
            rcases List.mem_append.mp hv with hv1 | hv2
            · refine ⟨td, F, List.mem_cons_self _ _, hF, ?_⟩
              exact List.eq_of_mem_replicate hv1
            · obtain ⟨td2, F2, htd2, hF2, hv2e⟩ := hvals v hv2
              exact ⟨td2, F2, List.mem_cons_of_mem _ htd2, hF2, hv2e⟩

/-- Pointwise-equal waveform maps stay pointwise equal through the loop
when the two circuits have equal inputs/outputs and gate lists with the
same members (both well formed with pairwise distinct outputs). -/
theorem simFold_pointwise {c1 c2 : Circuit}
    (hin : c1.inputs = c2.inputs) (hout : c1.outputs = c2.outputs)
    (hmem : ∀ g, g ∈ c1.gates ↔ g ∈ c2.gates)
    (hnd1 : (c1.gates.map (·.out_sig)).Nodup) (hnd2 : (c2.gates.map (·.out_sig)).Nodup)
    (hwf1 : ∀ g ∈ c1.gates, wellFormedGate g = true)
    (hwf2 : ∀ g ∈ c2.gates, wellFormedGate g = true) :
    ∀ (stim : List (Int × List Int)) (wf1 wf2 : Wf),
      (∀ n, wfGet wf1 n = wfGet wf2 n) →
      ∃ r1 r2, simFold c1 stim wf1 = .ok r1 ∧ simFold c2 stim wf2 = .ok r2 ∧
        ∀ n, wfGet r1 n = wfGet r2 n := by
  intro stim
  induction stim with
  | nil => exact fun wf1 wf2 h => ⟨wf1, wf2, rfl, rfl, h⟩
  | cons td rest ih =>
    intro wf1 wf2 hw
    obtain ⟨F1, hF1⟩ := fixLoop_ok hwf1 (envSeed c1.inputs td.2)
    obtain ⟨F2, hF2⟩ := fixLoop_ok hwf2 (envSeed c2.inputs td.2)
    have hF2x : fixLoop c2.gates (envSeed c1.inputs td.2) = .ok F2 := by
      rw [hin]; exact hF2
    have henv : ∀ n, envGet F1 n = envGet F2 n :=
      fixLoop_pointwise hmem hnd1 hnd2 hF1 hF2x
    have hw2 : ∀ n, wfGet (sampleStep (c1.inputs ++ c1.outputs) F1 wf1) n
        = wfGet (sampleStep (c2.inputs ++ c2.outputs) F2 wf2) n := by
      intro n
      rw [wfGet_sampleStep, wfGet_sampleStep, hin, hout, hw n, henv n]
    obtain ⟨r1, r2, h1, h2, h3⟩ := ih _ _ hw2
    refine ⟨r1, r2, ?_, ?_, h3⟩
    · simp only [simFold, simStep, hF1, h1]
    · simp only [simFold, simStep, hF2, h2]

/-- One step of the loop never looks at the timestamp. -/
theorem simStep_snd_only {c1 c2 : Circuit}
    (hin : c1.inputs = c2.inputs) (hout : c1.outputs = c2.outputs)
    (hg : c1.gates = c2.gates) {td1 td2 : Int × List Int} (hsnd : td1.2 = td2.2)
    (wf : Wf) : simStep c1 wf td1 = simStep c2 wf td2 := by
  simp only [simStep, hin, hout, hg, hsnd]

/-- The whole loop only depends on the value vectors of the stimulus. -/
theorem simFold_snd_only {c1 c2 : Circuit}
    (hin : c1.inputs = c2.inputs) (hout : c1.outputs = c2.outputs)
    (hg : c1.gates = c2.gates) :
    ∀ (s1 s2 : List (Int × List Int)) (wf : Wf),
      s1.map Prod.snd = s2.map Prod.snd → simFold c1 s1 wf = simFold c2 s2 wf := by
  intro s1
  induction s1 with
  | nil =>
    intro s2 wf h
    cases s2 with
    | nil => rfl
    | cons td2 r2 => simp at h
  | cons td rest ih =>
    intro s2 wf h
    cases s2 with
    | nil => simp at h
    | cons td2 rest2 =>
      simp only [List.map_cons, List.cons.injEq] at h
      obtain ⟨hsnd, hrest⟩ := h
      simp only [simFold]
      rw [simStep_snd_only hin hout hg hsnd wf]
      cases hstep : simStep c2 wf td2 with
      | error e => rfl
      | ok wf2 => exact ih rest2 wf2 hrest

/-! ### Sorting: `l == sorted(set(l))` iff strictly increasing -/

theorem mem_insertSorted {x y : Int} :
    ∀ {l : List Int}, y ∈ insertSorted x l ↔ y = x ∨ y ∈ l := by
  intro l
  induction l with
  | nil => simp [insertSorted]
  | cons z zs ih =>
    simp only [insertSorted]
    by_cases h : x ≤ z
    · rw [if_pos h]
      simp [List.mem_cons]
    · rw [if_neg h]
      simp only [List.mem_cons, ih]
      tauto

theorem insertSorted_pairwise {x : Int} :
    ∀ {l : List Int}, l.Pairwise (· ≤ ·) → (insertSorted x l).Pairwise (· ≤ ·) := by
  intro l
  induction l with
  | nil => intro _; simp [insertSorted]
  | cons z zs ih =>
    intro h
    obtain ⟨h1, h2⟩ := List.pairwise_cons.mp h
    simp only [insertSorted]
    by_cases hle : x ≤ z
    · rw [if_pos hle]
      refine List.Pairwise.cons ?_ h
      intro y hy
      rcases List.mem_cons.mp hy with rfl | hy2
      · exact hle
      · exact hle.trans (h1 y hy2)
    · rw [if_neg hle]
      refine List.Pairwise.cons ?_ (ih h2)
      intro y hy
      rcases mem_insertSorted.mp hy with rfl | hy2
      · exact le_of_not_le hle
      · exact h1 y hy2

theorem sortInts_pairwise : ∀ (l : List Int), (sortInts l).Pairwise (· ≤ ·) := by
  intro l
  induction l with
  | nil => simp [sortInts]
  | cons x xs ih => exact insertSorted_pairwise ih

theorem insertSorted_perm (x : Int) :
    ∀ (l : List Int), (insertSorted x l).Perm (x :: l) := by
  intro l
  induction l with
  | nil => exact List.Perm.refl _
  | cons z zs ih =>
    simp only [insertSorted]
    by_cases h : x ≤ z
    · rw [if_pos h]
    · rw [if_neg h]
      exact (ih.cons z).trans (List.Perm.swap x z zs)

theorem sortInts_perm : ∀ (l : List Int), (sortInts l).Perm l := by
  intro l
  induction l with
  | nil => exact List.Perm.refl _
  | cons x xs ih => exact (insertSorted_perm x (sortInts xs)).trans (ih.cons x)

theorem mem_dedupInts : ∀ {l : List Int} {x : Int}, x ∈ dedupInts l ↔ x ∈ l := by
  intro l
  induction l with
  | nil => intro x; simp [dedupInts]
  | cons y ys ih =>
    intro x
    simp only [dedupInts]
    by_cases h : y ∈ dedupInts ys
    · rw [if_pos h]
      constructor
      · exact fun hx => List.mem_cons_of_mem _ (ih.mp hx)
      · intro hx
        rcases List.mem_cons.mp hx with rfl | hx2
        · exact h
        · exact ih.mpr hx2
    · rw [if_neg h]
      simp [List.mem_cons, ih]

theorem dedupInts_nodup : ∀ (l : List Int), (dedupInts l).Nodup := by
  intro l
  induction l with
  | nil => simp [dedupInts]
  | cons y ys ih =>
    simp only [dedupInts]
    by_cases h : y ∈ dedupInts ys
    · rw [if_pos h]; exact ih
    · rw [if_neg h]; exact List.nodup_cons.mpr ⟨h, ih⟩

theorem dedupInts_of_nodup : ∀ {l : List Int}, l.Nodup → dedupInts l = l := by
  intro l
  induction l with
  | nil => intro _; rfl
  | cons y ys ih =>
    intro h
    obtain ⟨h1, h2⟩ := List.nodup_cons.mp h
    simp only [dedupInts]
    rw [if_neg (fun hm => h1 (mem_dedupInts.mp hm)), ih h2]

theorem insertSorted_of_le {x : Int} :
    ∀ {l : List Int}, (∀ y ∈ l, x ≤ y) → insertSorted x l = x :: l := by
  intro l h
  cases l with
  | nil => rfl
  | cons z zs =>
    simp only [insertSorted]
    rw [if_pos (h z (List.mem_cons_self _ _))]

theorem sortInts_of_pairwise : ∀ {l : List Int}, l.Pairwise (· ≤ ·) → sortInts l = l := by
  intro l
  induction l with
  | nil => intro _; rfl
  | cons x xs ih =>
    intro h
    obtain ⟨h1, h2⟩ := List.pairwise_cons.mp h
    show insertSorted x (sortInts xs) = x :: xs
    rw [ih h2]
    exact insertSorted_of_le h1

theorem pairwise_lt_of_le_nodup : ∀ {l : List Int},
    l.Pairwise (· ≤ ·) → l.Nodup → l.Pairwise (· < ·) := by
  intro l
  induction l with
  | nil => intro _ _; exact List.Pairwise.nil
  | cons x xs ih =>
    intro hle hnd
    obtain ⟨h1, h2⟩ := List.pairwise_cons.mp hle
    obtain ⟨h3, h4⟩ := List.nodup_cons.mp hnd
    refine List.Pairwise.cons ?_ (ih h2 h4)
    intro y hy
    exact lt_of_le_of_ne (h1 y hy) (fun he => h3 (by rw [he]; exact hy))

/-- The source's check `times_list == sorted(set(times_list))` holds iff
the timestamp list is strictly increasing in file order. -/
theorem sortedDedup_eq_iff (l : List Int) :
    l = sortedDedupInt l ↔ l.Pairwise (· < ·) := by
  constructor
  · intro h
    rw [h]
    unfold sortedDedupInt
    refine pairwise_lt_of_le_nodup (sortInts_pairwise _) ?_
    exact (sortInts_perm (dedupInts l)).symm.nodup (dedupInts_nodup l)
  · intro h
    have hnd : l.Nodup := h.imp (fun hlt => ne_of_lt hlt)
    unfold sortedDedupInt
    rw [dedupInts_of_nodup hnd, sortInts_of_pairwise (h.imp (fun hab => le_of_lt hab))]

/-! ### Counting separators (for the gate-line grammar) -/

/-- Occurrences of a character in a line. -/
def countCh (c : Char) : List Char → Nat
  | [] => 0
  | x :: xs => (if x = c then 1 else 0) + countCh c xs

theorem splitOnChar_length (c : Char) :
    ∀ (s : List Char), (splitOnChar c s).length = countCh c s + 1 := by
  intro s
  induction s with
  | nil => simp [splitOnChar, countCh]
  | cons x xs ih =>
    simp only [splitOnChar, countCh]
    by_cases h : x = c
    · rw [if_pos h, if_pos h]
      simp only [List.length_cons, ih]
      omega
    · rw [if_neg h, if_neg h]
      cases h2 : splitOnChar c xs with
      | nil => rw [h2] at ih; simp at ih
      | cons y ys =>
        rw [h2] at ih
        simp only [List.length_cons] at ih ⊢
        omega

theorem countCh_pos {c : Char} : ∀ {s : List Char}, c ∈ s ↔ 1 ≤ countCh c s := by
  intro s
  induction s with
  | nil => simp [countCh]
  | cons x xs ih =>
    simp only [countCh, List.mem_cons]
    by_cases h : x = c
    · rw [if_pos h]
      constructor
      · intro _; omega
      · intro _
        exact Or.inl h.symm
    · rw [if_neg h]
      simp only [Nat.zero_add]
      constructor
      · rintro (rfl | hm)
        · exact absurd rfl h
        · exact ih.mp hm
      · intro hc
        exact Or.inr (ih.mpr hc)

/-! ### Executable mirror of the evaluator

`fixLoop` uses well-founded recursion, which the kernel does not unfold
during definitional reduction, so concrete runs are evaluated through the
fuelled mirror below and transported along `fixLoop_eval` /
`simulateFuel_eq`. -/

theorem fixLoop_eval {gates : List Gate} {env : Env} {r : Except SimError Env}
    (h : fixFuel (unresolvedCount env gates + 1) gates env = some r) :
    fixLoop gates env = r := by
  have h2 := fixFuel_reaches gates (unresolvedCount env gates) env le_rfl
  rw [h] at h2
  exact (Option.some.inj h2).symm

/-- One stimulus step with the fuelled loop. -/
def simStepFuel (c : Circuit) (wf : Wf) (td : Int × List Int) :
    Option (Except SimError Wf) :=
  match fixFuel (unresolvedCount (envSeed c.inputs td.2) c.gates + 1) c.gates
      (envSeed c.inputs td.2) with
  | none => none
  | some (.error e) => some (.error e)
  | some (.ok F) => some (.ok (sampleStep (c.inputs ++ c.outputs) F wf))

/-- The stimulus loop with the fuelled fixed point. -/
def simFoldFuel (c : Circuit) : List (Int × List Int) → Wf → Option (Except SimError Wf)
  | [], wf => some (.ok wf)
  | td :: rest, wf =>
    match simStepFuel c wf td with
    | none => none
    | some (.error e) => some (.error e)
    | some (.ok wf2) => simFoldFuel c rest wf2

/-- `simulate` with the fuelled fixed point. -/
def simulateFuel (c : Circuit) : Option (Except SimError Wf) :=
  simFoldFuel c c.stimulus ((allNodes c).map (fun n => (n, ([] : List Int))))

theorem simStepFuel_eq {c : Circuit} {wf : Wf} {td : Int × List Int}
    {x : Except SimError Wf} (h : simStepFuel c wf td = some x) :
    simStep c wf td = x := by
  unfold simStepFuel at h
  unfold simStep
  split at h
  · cases h
  · next e hf =>
    cases h
    rw [fixLoop_eval hf]
  · next F hf =>
    cases h
    rw [fixLoop_eval hf]

theorem simFoldFuel_eq {c : Circuit} :
    ∀ (stim : List (Int × List Int)) (wf : Wf) {r : Except SimError Wf},
      simFoldFuel c stim wf = some r → simFold c stim wf = r := by
  intro stim
  induction stim with
  | nil =>
    intro wf r h
    cases h
    rfl
  | cons td rest ih =>
    intro wf r h
    simp only [simFoldFuel] at h
    split at h
    · cases h
    · next e hs =>
      cases h
      simp only [simFold, simStepFuel_eq hs]
    · next wf2 hs =>
      simp only [simFold, simStepFuel_eq hs]
      exact ih _ h

theorem simulateFuel_eq {c : Circuit} {r : Except SimError Wf}
    (h : simulateFuel c = some r) : simulate c = r :=
  simFoldFuel_eq c.stimulus _ h

/-! ### The claims -/

/-- Claim C4: for every gate list and seed environment — including cyclic
or unresolvable dependency structures — the `while changed_flag` loop of
`simulate` terminates: it needs at most one full pass per gate output
still unresolved in the seed (itself at most the number of gates) plus
one final pass that adds no signal.  Formally, the fuelled loop with that
pass budget finishes (returns `some`) and returns exactly what `fixLoop`
(the loop embedded by well-founded recursion, which `simulate` runs once
per stimulus step) returns — so `simulate` is a total function. -/
theorem C4_fixpoint_terminates (gates : List Gate) (env : Env) :
    fixFuel (unresolvedCount env gates + 1) gates env = some (fixLoop gates env) ∧
    unresolvedCount env gates ≤ gates.length :=
  ⟨fixFuel_reaches gates _ env le_rfl, unresolvedCount_le_length env gates⟩

/-- Claim C5: on operand values in {0,1} the gate truth functions satisfy
AND(a,b) = a &amp; b, OR(a,b) = a | b, XOR(a,b) = a ^ b and NOT(a) = 1 − a
(with the expected truth tables), and any kind outside the four known
ones makes `eval_gate` fail with an UnknownGateKind error naming it. -/
theorem C5_truth_functions (a b : Int) (ha : a = 0 ∨ a = 1) (hb : b = 0 ∨ b = 1) :
    eval_gate "AND".data [a, b] = .ok (Int.land a b) ∧
    Int.land a b = (if a = 1 ∧ b = 1 then 1 else 0) ∧
    eval_gate "OR".data [a, b] = .ok (Int.lor a b) ∧
    Int.lor a b = (if a = 1 ∨ b = 1 then 1 else 0) ∧
    eval_gate "XOR".data [a, b] = .ok (Int.xor a b) ∧
    Int.xor a b = (if a = b then 0 else 1) ∧
    eval_gate "NOT".data [a] = .ok (1 - a) ∧
    1 - a = (if a = 1 then 0 else 1) ∧
    (∀ kind args, kind ≠ "AND".data → kind ≠ "OR".data → kind ≠ "NOT".data →
      kind ≠ "XOR".data → eval_gate kind args = .error (.unknownGateKind kind)) := by
  refine ⟨rfl, ?_, rfl, ?_, rfl, ?_, rfl, ?_, ?_⟩
  · rcases ha with rfl | rfl <;> rcases hb with rfl | rfl <;> decide
  · rcases ha with rfl | rfl <;> rcases hb with rfl | rfl <;> decide
  · rcases ha with rfl | rfl <;> rcases hb with rfl | rfl <;> decide
  · rcases ha with rfl | rfl <;> decide
  · intro kind args hA hO hN hX
    unfold eval_gate
    rw [if_neg hA, if_neg hO, if_neg hN, if_neg hX]

/-- Witness for C5 at a = 0, b = 1, and kind NAND. -/
theorem C5_witness :
    eval_gate "AND".data [0, 1] = .ok 0 ∧ eval_gate "OR".data [0, 1] = .ok 1 ∧
    eval_gate "XOR".data [0, 1] = .ok 1 ∧ eval_gate "NOT".data [0] = .ok 1 ∧
    eval_gate "NAND".data [0, 1] = .error (.unknownGateKind "NAND".data) := by
  have h := C5_truth_functions 0 1 (Or.inl rfl) (Or.inr rfl)
  refine ⟨?_, ?_, ?_, ?_, ?_⟩
  · rw [h.1]; rfl
  · rw [h.2.2.1]; rfl
  · rw [h.2.2.2.2.1]; rfl
  · rw [h.2.2.2.2.2.2.1]; rfl
  · exact h.2.2.2.2.2.2.2.2 "NAND".data [0, 1]
      (by decide) (by decide) (by decide) (by decide)

/-- Claim C7 (amended): a gate line parses successfully exactly when it
contains exactly one `=` (the source unpacks `content.split("=")` into
precisely two pieces, so a second `=` is also fatal, unlike the claim's
"split on the first `=`") and the part after the `=` contains at least
one `(`; no closing parenthesis is required.  On success the components
are: trimmed left piece, trimmed text before the first `(`, and the text
between the first `(` and the following `(` or end, truncated at its
first `)`, split on `,` with each token trimmed. -/
theorem C7_gate_line_grammar (content : List Char) :
    ((∃ g, parseGateLine content = .ok g) ↔
      (countCh '=' content = 1 ∧ '(' ∈ (splitOnChar '=' content).getD 1 [])) ∧
    (∀ lhs rhs kindPart seg rest, splitOnChar '=' content = [lhs, rhs] →
      splitOnChar '(' rhs = kindPart :: seg :: rest →
      parseGateLine content = .ok ⟨pyStrip lhs, pyStrip kindPart,
        (splitOnChar ',' ((splitOnChar ')' seg).getD 0 [])).map pyStrip⟩) := by
  have hlen := splitOnChar_length '=' content
  constructor
  · cases h1 : splitOnChar '=' content with
    | nil => rw [h1] at hlen; simp at hlen
    | cons p1 t1 =>
      cases t1 with
      | nil =>
        rw [h1] at hlen
        simp only [List.length_cons, List.length_nil] at hlen
        constructor
        · rintro ⟨g, hgg⟩
          simp [parseGateLine, h1] at hgg
        · rintro ⟨hc, -⟩
          omega
      | cons p2 t2 =>
        cases t2 with
        | nil =>
          rw [h1] at hlen
          simp only [List.length_cons, List.length_nil] at hlen
          have hcount : countCh '=' content = 1 := by omega
          have hgetD : (splitOnChar '=' content).getD 1 [] = p2 := by rw [h1]; rfl
          have hlen2 := splitOnChar_length '(' p2
          cases h2 : splitOnChar '(' p2 with
          | nil => rw [h2] at hlen2; simp at hlen2
          | cons k1 s1 =>
            cases s1 with
            | nil =>
              rw [h2] at hlen2
              simp only [List.length_cons, List.length_nil] at hlen2
              constructor
              · rintro ⟨g, hgg⟩
                simp [parseGateLine, h1, h2] at hgg
              · rintro ⟨-, hmem⟩
                have hmem2 : '(' ∈ p2 := hmem
                have := countCh_pos.mp hmem2
                omega
            | cons s2 t3 =>
              constructor
              · intro _
                refine ⟨hcount, ?_⟩
                show '(' ∈ p2
                refine countCh_pos.mpr ?_
                rw [h2] at hlen2
                simp only [List.length_cons] at hlen2
                omega
              · intro _
                refine ⟨⟨pyStrip p1, pyStrip k1,
                  (splitOnChar ',' ((splitOnChar ')' s2).getD 0 [])).map pyStrip⟩, ?_⟩
                simp [parseGateLine, h1, h2]
        | cons p3 t3 =>
          rw [h1] at hlen
          simp only [List.length_cons] at hlen
          constructor
          · rintro ⟨g, hgg⟩
            simp [parseGateLine, h1] at hgg
          · rintro ⟨hc, -⟩
            omega
  · intro lhs rhs kindPart seg rest h1 h2
    simp [parseGateLine, h1, h2]

/-- Witness for C7 on the well-formed line `y = AND(a, b)`. -/
theorem C7_witness :
    (∃ g, parseGateLine "y = AND(a, b)".data = .ok g) ∧
    countCh '=' "y = AND(a, b)".data = 1 ∧
    parseGateLine "y = AND(a, b)".data =
      .ok ⟨"y".data, "AND".data, ["a".data, "b".data]⟩ := by
  have h := C7_gate_line_grammar ("y = AND(a, b)".data)
  refine ⟨h.1.mpr ⟨by decide, by decide⟩, by decide, ?_⟩
  exact h.2 "y ".data " AND(a, b)".data " AND".data "a, b)".data [] rfl rfl

/-- Counterexample to C7 as stated: the line `y = AND(a, b) = z` contains
an `=` and a parenthesis group, yet the parser rejects it, because
`content.split("=")` yields three pieces and the two-variable unpacking
fails — the parser does not split on the first `=` only. -/
theorem C7_counterexample :
    parseGateLine "y = AND(a, b) = z".data =
      .error (.malformedGateLine "y = AND(a, b) = z".data) ∧
    '=' ∈ "y = AND(a, b) = z".data ∧ '(' ∈ "y = AND(a, b) = z".data ∧
    ')' ∈ "y = AND(a, b) = z".data :=
  ⟨rfl, by decide, by decide, by decide⟩

/-- Claim C8 (amended): a stimulus line is parsed by taking the first
whitespace token as an integer timestamp and every remaining token as an
integer; the only check on the values is that their count equals the
declared input count — there is no constraint to {0,1}. -/
theorem C8_stimulus_values (numInputs : Nat) :
    ∀ (lines : List (List Char)) (stim : List (Int × List Int)),
      parseStimLines numInputs lines = .ok stim →
      ∀ td ∈ stim, td.2.length = numInputs := by
  intro lines
  induction lines with
  | nil =>
    intro stim h td htd
    simp only [parseStimLines] at h
    cases h
    cases htd
  | cons content rest ih =>
    intro stim h td htd
    simp only [parseStimLines] at h
    split at h
    · exact ih _ h td htd
    · split at h
      · cases h
      · next ts hts =>
        split at h
        · cases h
        · next values hvals =>
          split at h
          · cases h
          · next hlen2 =>
            split at h
            · cases h
            · next stim2 hstim2 =>
              cases h
              rcases List.mem_cons.mp htd with rfl | htd2
              · exact not_ne_iff.mp hlen2
              · exact ih _ hstim2 td htd2

/-- Witness for C8: a well-formed two-input stimulus line. -/
theorem C8_witness :
    parseStimLines 2 ["0 1 0".data] = .ok [(0, [1, 0])] ∧
    ∀ td ∈ [((0 : Int), [(1 : Int), 0])], td.2.length = 2 :=
  ⟨rfl, C8_stimulus_values 2 ["0 1 0".data] [(0, [1, 0])] rfl⟩

/-- Counterexample to C8 as stated: a stimulus line whose value `2` lies
outside {0,1} is accepted by the parser (only the count is checked). -/
theorem C8_counterexample :
    parseStimLines 1 ["0 2".data] = .ok [(0, [2])] ∧
    ¬ ((2 : Int) = 0 ∨ (2 : Int) = 1) :=
  ⟨rfl, by decide⟩

/-- Claim C10: two parsed circuits identical except for their stimulus
timestamps produce identical results from `simulate`: the evaluator
destructures each stimulus pair as `(_, input_values)` and never reads
the timestamp. -/
theorem C10_timestamps_ignored (c1 c2 : Circuit)
    (hin : c1.inputs = c2.inputs) (hout : c1.outputs = c2.outputs)
    (hg : c1.gates = c2.gates)
    (hsnd : c1.stimulus.map Prod.snd = c2.stimulus.map Prod.snd) :
    simulate c1 = simulate c2 := by
  unfold simulate
  have hall : allNodes c1 = allNodes c2 := by
    unfold allNodes
    rw [hin, hout, hg]
  rw [hall]
  exact simFold_snd_only hin hout hg _ _ _ hsnd

/-- Concrete netlists for the C10 witness (they differ only in their
stimulus timestamps). -/
def netC10a : String := "INPUTS: a\nOUTPUTS: y\nGATES:\ny = NOT(a)\nSTIMULUS:\n0 0\n1 1"

def netC10b : String := "INPUTS: a\nOUTPUTS: y\nGATES:\ny = NOT(a)\nSTIMULUS:\n5 0\n9 1"

def circC10a : Circuit :=
  ⟨["a".data], ["y".data], [⟨"y".data, "NOT".data, ["a".data]⟩], [(0, [0]), (1, [1])]⟩

def circC10b : Circuit :=
  ⟨["a".data], ["y".data], [⟨"y".data, "NOT".data, ["a".data]⟩], [(5, [0]), (9, [1])]⟩

/-- Witness for C10: two parser-accepted netlists differing only in
timestamps simulate identically. -/
theorem C10_witness :
    parse_netlsit netC10a = .ok circC10a ∧ parse_netlsit netC10b = .ok circC10b ∧
    circC10a.stimulus ≠ circC10b.stimulus ∧
    simulate circC10a = simulate circC10b :=
  ⟨rfl, rfl, by decide, C10_timestamps_ignored circC10a circC10b rfl rfl rfl rfl⟩

/-- Claim C6: for a netlist whose sections are located and whose gate and
stimulus regions parse (in particular every stimulus line has the
declared number of bits), the parser fails with the NonMonotonicTime
error exactly when the timestamp sequence, in file order, is not strictly
increasing; the implemented check — comparing the literal timestamp list
with its sorted, deduplicated form — is equivalent to strict
monotonicity.  The check sits inside `parse_netlsit`, which never invokes
`simulate`, so the failure occurs before any evaluation. -/
theorem C6_nonmonotonic_time (text : String)
    (io ig ii is2 : Nat) (gs : List Gate) (stim : List (Int × List Int))
    (ho : locate_section (cleanLines text) "OUTPUTS" = .ok io)
    (hg : locate_section (cleanLines text) "GATES" = .ok ig)
    (hi : locate_section (cleanLines text) "INPUTS" = .ok ii)
    (hs : locate_section (cleanLines text) "STIMULUS" = .ok is2)
    (hgs : parseGates (((cleanLines text).take is2).drop (ig + 1)) = .ok gs)
    (hstim : parseStimLines (sectionNames (cleanLines text) ii).length
        ((cleanLines text).drop (is2 + 1)) = .ok stim) :
    (parse_netlsit text = .error .nonMonotonicTime ↔
      ¬ (stim.map Prod.fst).Pairwise (· < ·)) ∧
    (stim.map Prod.fst = sortedDedupInt (stim.map Prod.fst) ↔
      (stim.map Prod.fst).Pairwise (· < ·)) := by
  have hun : parse_netlsit text =
      (if stim.map Prod.fst = sortedDedupInt (stim.map Prod.fst) then
        .ok ⟨sectionNames (cleanLines text) ii, sectionNames (cleanLines text) io,
          gs, stim⟩
      else .error .nonMonotonicTime) := by
    simp only [parse_netlsit, ho, hg, hi, hs, hgs, hstim]
  refine ⟨?_, sortedDedup_eq_iff _⟩
  rw [hun]
  by_cases hsor : stim.map Prod.fst = sortedDedupInt (stim.map Prod.fst)
  · rw [if_pos hsor]
    exact iff_of_false (by simp) (not_not_intro ((sortedDedup_eq_iff _).mp hsor))
  · rw [if_neg hsor]
    exact iff_of_true rfl (fun hp => hsor ((sortedDedup_eq_iff _).mpr hp))

/-- Netlist for the C6 witness: timestamps 0, 2, 1 (spec scenario 4). -/
def netC6 : String := "INPUTS: a\nOUTPUTS: y\nGATES:\ny = NOT(a)\nSTIMULUS:\n0 0\n2 1\n1 0"

/-- Witness for C6: the 0, 2, 1 netlist fails with NonMonotonicTime. -/
theorem C6_witness :
    parse_netlsit netC6 = .error .nonMonotonicTime ∧
    ¬ (([0, 2, 1] : List Int).Pairwise (· < ·)) := by
  have h := C6_nonmonotonic_time netC6 1 2 0 4
    [⟨"y".data, "NOT".data, ["a".data]⟩] [(0, [0]), (2, [1]), (1, [0])]
    rfl rfl rfl rfl rfl rfl
  have hnp : ¬ (([0, 2, 1] : List Int).Pairwise (· < ·)) := by
    intro hp
    have := (List.pairwise_cons.mp (List.pairwise_cons.mp hp).2).1 1 (by decide)
    omega
  exact ⟨h.1.mpr hnp, hnp⟩

/-- Claim C9: within a stimulus step (whose input vector covers the
declared inputs, as the parser guarantees), no environment entry is ever
overwritten: every binding of the seed environment survives to the final
environment of the fixed-point loop.  In particular a gate whose output
name equals a declared input name never fires — the name is bound by the
seed `dict(zip(input_signals, input_values))` — so sampling reads the
input vector's value for that name, not the gate's. -/
theorem C9_input_shadowing (c : Circuit) (td : Int × List Int) (htd : td ∈ c.stimulus)
    (hlen : c.inputs.length ≤ td.2.length)
    (g : Gate) (hg : g ∈ c.gates) (hgin : g.out_sig ∈ c.inputs)
    (F : Env) (hF : fixLoop c.gates (envSeed c.inputs td.2) = .ok F) :
    (∀ n v, envGet (envSeed c.inputs td.2) n = some v → envGet F n = some v) ∧
    envGet F g.out_sig = envGet (envSeed c.inputs td.2) g.out_sig ∧
    (envGet F g.out_sig).isSome = true := by
  have hmono : ∀ n v, envGet (envSeed c.inputs td.2) n = some v → envGet F n = some v :=
    fun n v h => envGet_mono (fixLoop_le hF) h
  have hsome := envSeed_isSome hgin hlen
  obtain ⟨v, hv⟩ := Option.isSome_iff_exists.mp hsome
  refine ⟨hmono, ?_, ?_⟩
  · rw [hv, hmono _ _ hv]
  · rw [hmono _ _ hv]
    rfl

/-- Netlist for the C9 witness: the gate `a = AND(z, z)` shares its
output name with input `a`. -/
def netC9 : String := "INPUTS: a\nOUTPUTS: y\nGATES:\na = AND(z, z)\ny = NOT(a)\nSTIMULUS:\n0 1"

def circC9 : Circuit :=
  ⟨["a".data], ["y".data],
   [⟨"a".data, "AND".data, ["z".data, "z".data]⟩, ⟨"y".data, "NOT".data, ["a".data]⟩],
   [(0, [1])]⟩

def envC9 : Env := [("a".data, 1), ("y".data, 0)]

/-- Witness for C9 on the concrete shadowed circuit: the final
environment still maps `a` to the seeded stimulus value. -/
theorem C9_witness :
    parse_netlsit netC9 = .ok circC9 ∧
    fixLoop circC9.gates (envSeed circC9.inputs [1]) = .ok envC9 ∧
    envGet envC9 "a".data = envGet (envSeed circC9.inputs [1]) "a".data ∧
    (envGet envC9 "a".data).isSome = true := by
  have hF : fixLoop circC9.gates (envSeed circC9.inputs [1]) = .ok envC9 :=
    fixLoop_eval rfl
  have h := C9_input_shadowing circC9 (0, [1]) (by decide) (by decide)
    ⟨"a".data, "AND".data, ["z".data, "z".data]⟩ (by decide) (by decide) envC9 hF
  exact ⟨rfl, hF, h.2.1, h.2.2⟩

/-- Claim C1 (amended): the waveform map returned by `simulate` has one
key for every name in inputs ∪ gate outputs ∪ outputs and only those, but
a name's sequence receives, per stimulus step, one sample per occurrence
of the name in the concatenated `inputs + outputs` sampling list — so a
gate-output name that is not also a declared input or output keeps the
empty sequence rather than one value per step, and a name declared in
both roles receives two samples per step.  The samples are in stimulus
order, and they are 0/1 values whenever all stimulus values are 0/1 (the
parser admits arbitrary integers, so this needs assuming). -/
theorem C1_waveform_shape (c : Circuit) (w : Wf) (hw : simulate c = .ok w) :
    (∀ n, (wfGet w n).isSome = true ↔
      (n ∈ c.inputs ∨ n ∈ c.gates.map (fun g => g.out_sig) ∨ n ∈ c.outputs)) ∧
    (∀ n l, wfGet w n = some l →
      l.length = c.stimulus.length * countName n (c.inputs ++ c.outputs)) ∧
    ((∀ td ∈ c.stimulus, ∀ v ∈ td.2, v = 0 ∨ v = 1) →
      ∀ n l, wfGet w n = some l → ∀ v ∈ l, v = 0 ∨ v = 1) := by
  have hw2 : simFold c c.stimulus ((allNodes c).map (fun n => (n, ([] : List Int))))
      = .ok w := hw
  have hshape := simFold_shape c.stimulus _ w hw2
  have hmem : ∀ n, n ∈ allNodes c ↔
      (n ∈ c.inputs ∨ n ∈ c.gates.map (fun g => g.out_sig) ∨ n ∈ c.outputs) := by
    intro n
    unfold allNodes
    rw [mem_dedupNames]
    simp [List.mem_append, or_assoc]
  refine ⟨?_, ?_, ?_⟩
  · intro n
    rw [← hmem n]
    by_cases hn : n ∈ allNodes c
    · simp only [hn, iff_true]
      obtain ⟨l2, hr, -, -⟩ := (hshape n).2 [] (by rw [wfGet_init, if_pos hn])
      rw [hr]
      rfl
    · simp only [hn, iff_false]
      have hnone := (hshape n).1 (by rw [wfGet_init, if_neg hn])
      rw [hnone]
      simp
  · intro n l hl
    by_cases hn : n ∈ allNodes c
    · obtain ⟨l2, hr, hlen, -⟩ := (hshape n).2 [] (by rw [wfGet_init, if_pos hn])
      rw [hl] at hr
      have hll : l = l2 := by
        have := Option.some.inj hr
        simpa using this
      rw [hll]
      exact hlen
    · have hnone := (hshape n).1 (by rw [wfGet_init, if_neg hn])
      rw [hnone] at hl
      cases hl
  · intro h01 n l hl
    by_cases hn : n ∈ allNodes c
    · obtain ⟨l2, hr, -, hvals⟩ := (hshape n).2 [] (by rw [wfGet_init, if_pos hn])
      rw [hl] at hr
      have hll : l = l2 := by
        have := Option.some.inj hr
        simpa using this
      intro v hv
      rw [hll] at hv
      obtain ⟨td, F, htd, hF, hveq⟩ := hvals v hv
      have he : env01 F :=
        fixLoop_01 (envSeed_01 (fun v2 hv2 => h01 td htd v2 hv2)) hF
      rw [hveq]
      cases hEF : envGet F n with
      | none => simp [hEF]
      | some u => simpa [hEF] using he n u hEF
    · have hnone := (hshape n).1 (by rw [wfGet_init, if_neg hn])
      rw [hnone] at hl
      cases hl

/-- Netlist for the C1 counterexample: gate output `g` is neither an
input nor an output, and one stimulus value is 2. -/
def netC1 : String := "INPUTS: a\nOUTPUTS: y\nGATES:\ng = NOT(a)\ny = AND(a, a)\nSTIMULUS:\n0 0\n1 2"

def circC1 : Circuit :=
  ⟨["a".data], ["y".data],
   [⟨"g".data, "NOT".data, ["a".data]⟩, ⟨"y".data, "AND".data, ["a".data, "a".data]⟩],
   [(0, [0]), (1, [2])]⟩

def wfC1 : Wf := [("a".data, [0, 2]), ("g".data, []), ("y".data, [0, 2])]

/-- Counterexample to C1 as stated: on a parser-accepted netlist with two
stimulus steps, the gate-output name `g` is mapped to the empty sequence
(length 0, not 2), and the sequence for `a` contains the value 2, which
is not a 0/1 value. -/
theorem C1_counterexample :
    parse_netlsit netC1 = .ok circC1 ∧
    simulate circC1 = .ok wfC1 ∧
    "g".data ∈ circC1.gates.map (fun g => g.out_sig) ∧
    circC1.stimulus.length = 2 ∧
    wfGet wfC1 "g".data = some [] ∧
    wfGet wfC1 "a".data = some [0, 2] ∧
    ¬ ((2 : Int) = 0 ∨ (2 : Int) = 1) :=
  ⟨rfl, simulateFuel_eq rfl, by decide, rfl, rfl, rfl, by decide⟩

/-- Circuit for the C1 witness (spec scenario 1). -/
def circC1w : Circuit :=
  ⟨["a".data, "b".data], ["y".data],
   [⟨"y".data, "AND".data, ["a".data, "b".data]⟩],
   [(0, [0, 0]), (1, [0, 1]), (2, [1, 0]), (3, [1, 1])]⟩

def wfC1w : Wf :=
  [("a".data, [0, 0, 1, 1]), ("b".data, [0, 1, 0, 1]), ("y".data, [0, 0, 0, 1])]

/-- Witness for C1 on the AND-gate scenario. -/
theorem C1_witness :
    simulate circC1w = .ok wfC1w ∧
    (∀ n l, wfGet wfC1w n = some l →
      l.length = circC1w.stimulus.length * countName n (circC1w.inputs ++ circC1w.outputs)) ∧
    ((∀ td ∈ circC1w.stimulus, ∀ v ∈ td.2, v = 0 ∨ v = 1) →
      ∀ n l, wfGet wfC1w n = some l → ∀ v ∈ l, v = 0 ∨ v = 1) := by
  have hs : simulate circC1w = .ok wfC1w := simulateFuel_eq rfl
  have h := C1_waveform_shape circC1w wfC1w hs
  exact ⟨hs, h.2.1, h.2.2⟩

/-- Claim C2 (amended): consider a well-formed circuit containing a gate
one of whose operands `p` appears neither among the declared inputs nor
among the gate output names, so the gate can never fire.  Provided the
gate's own output name is not a declared input (the seed environment
would otherwise shadow it with the stimulus value — see the
counterexample) and belongs to no other gate, `simulate` raises no error
and, when that name is a declared output sampled exactly once per step,
its waveform is the constant all-zero sequence, one 0 per stimulus
step. -/
theorem C2_stuck_gate (c : Circuit) (g : Gate) (p : List Char)
    (hg : g ∈ c.gates) (hp : p ∈ g.params)
    (hpin : p ∉ c.inputs) (hpdest : ∀ g2 ∈ c.gates, g2.out_sig ≠ p)
    (hoin : g.out_sig ∉ c.inputs)
    (huniq : ∀ g2 ∈ c.gates, g2.out_sig = g.out_sig → g2 = g)
    (hwf : ∀ g2 ∈ c.gates, wellFormedGate g2 = true)
    (hout : g.out_sig ∈ c.outputs)
    (hcount : countName g.out_sig (c.inputs ++ c.outputs) = 1) :
    ∃ w, simulate c = .ok w ∧
      wfGet w g.out_sig = some (List.replicate c.stimulus.length 0) := by
  obtain ⟨r, hr⟩ :=
    simFold_ok hwf c.stimulus ((allNodes c).map (fun n => (n, ([] : List Int))))
  refine ⟨r, hr, ?_⟩
  have hshape := simFold_shape c.stimulus _ r hr g.out_sig
  have hmem : g.out_sig ∈ allNodes c := by
    unfold allNodes
    rw [mem_dedupNames]
    exact List.mem_append.mpr (Or.inr hout)
  obtain ⟨l2, hwg, hlen, hvals⟩ := hshape.2 [] (by rw [wfGet_init, if_pos hmem])
  rw [hwg]
  have h0 : ∀ v ∈ l2, v = 0 := by
    intro v hv
    obtain ⟨td, F, htd, hF, hveq⟩ := hvals v hv
    have hstuck : envGet F g.out_sig = none :=
      fixLoop_stuck hp hpdest huniq (envSeed_none hpin) (envSeed_none hoin) hF
    rw [hveq, hstuck]
    rfl
  have hl2 : l2 = List.replicate c.stimulus.length 0 := by
    rw [List.eq_replicate_iff]
    constructor
    · rw [hlen, hcount, Nat.mul_one]
    · exact h0
  rw [hl2]
  rfl

/-- Netlist for the C2 counterexample: the stuck gate `a = AND(z, z)`
shares its output name with declared input `a`, which is driven to 1. -/
def netC2c : String := "INPUTS: a\nOUTPUTS: y\nGATES:\na = AND(z, z)\ny = NOT(a)\nSTIMULUS:\n0 1"

def circC2c : Circuit :=
  ⟨["a".data], ["y".data],
   [⟨"a".data, "AND".data, ["z".data, "z".data]⟩, ⟨"y".data, "NOT".data, ["a".data]⟩],
   [(0, [1])]⟩

def wfC2c : Wf := [("a".data, [1]), ("y".data, [0])]

/-- Counterexample to C2 as stated: the gate `a = AND(z, z)` can never
resolve (operand `z` is neither an input nor any gate output), its output
name `a` is a declared input, and the sampled sequence for `a` is [1] —
the stimulus value — not the all-zero sequence the claim asserts. -/
theorem C2_counterexample :
    parse_netlsit netC2c = .ok circC2c ∧
    "z".data ∉ circC2c.inputs ∧
    (∀ g2 ∈ circC2c.gates, g2.out_sig ≠ "z".data) ∧
    "a".data ∈ circC2c.inputs ∧
    simulate circC2c = .ok wfC2c ∧
    wfGet wfC2c "a".data = some [1] ∧
    some [(1 : Int)] ≠ some (List.replicate circC2c.stimulus.length 0) :=
  ⟨rfl, by decide, by decide, by decide, simulateFuel_eq rfl, rfl, by decide⟩

/-- Netlist for the C2 witness: `y = AND(z, z)` is stuck and `y` is a
declared output. -/
def netC2w : String := "INPUTS: a\nOUTPUTS: y\nGATES:\ny = AND(z, z)\nSTIMULUS:\n0 1\n1 0"

def circC2w : Circuit :=
  ⟨["a".data], ["y".data],
   [⟨"y".data, "AND".data, ["z".data, "z".data]⟩],
   [(0, [1]), (1, [0])]⟩

/-- Witness for C2: the stuck output `y` yields the all-zero waveform
over two steps and no error is raised. -/
theorem C2_witness :
    parse_netlsit netC2w = .ok circC2w ∧
    ∃ w, simulate circC2w = .ok w ∧
      wfGet w "y".data = some (List.replicate circC2w.stimulus.length 0) :=
  ⟨rfl, C2_stuck_gate circC2w ⟨"y".data, "AND".data, ["z".data, "z".data]⟩ "z".data
    (by decide) (by decide) (by decide) (by decide) (by decide) (by decide)
    (by decide) (by decide) (by decide)⟩

/-- Claim C3: for well-formed circuits (known gate kinds with sufficient
arity and pairwise distinct gate output names), permuting the gate list
while keeping inputs, outputs and stimulus equal leaves the waveform map
unchanged as a mapping.  The proof goes through the order-free
characterisation `Derives` of the per-step fixed point and does not even
need acyclicity, so in particular every acyclic well-formed circuit is
covered. -/
theorem C3_gate_order_insensitive (c1 c2 : Circuit)
    (hin : c1.inputs = c2.inputs) (hout : c1.outputs = c2.outputs)
    (hstim : c1.stimulus = c2.stimulus)
    (hperm : c1.gates.Perm c2.gates)
    (hnd : (c1.gates.map (fun g => g.out_sig)).Nodup)
    (hwf : ∀ g ∈ c1.gates, wellFormedGate g = true) :
    ∃ w1 w2, simulate c1 = .ok w1 ∧ simulate c2 = .ok w2 ∧
      ∀ n, wfGet w1 n = wfGet w2 n := by
  have hmem : ∀ g, g ∈ c1.gates ↔ g ∈ c2.gates := fun g => hperm.mem_iff
  have hnd2 : (c2.gates.map (fun g => g.out_sig)).Nodup := (hperm.map _).nodup hnd
  have hwf2 : ∀ g ∈ c2.gates, wellFormedGate g = true :=
    fun g hg => hwf g (hperm.mem_iff.mpr hg)
  have hmapmem : ∀ n : List Char,
      n ∈ c1.gates.map (fun g => g.out_sig) ↔ n ∈ c2.gates.map (fun g => g.out_sig) :=
    fun n => (hperm.map (fun g => g.out_sig)).mem_iff
  have hinit : ∀ n, wfGet ((allNodes c1).map (fun m => (m, ([] : List Int)))) n
      = wfGet ((allNodes c2).map (fun m => (m, ([] : List Int)))) n := by
    intro n
    rw [wfGet_init, wfGet_init]
    have hiff : n ∈ allNodes c1 ↔ n ∈ allNodes c2 := by
      unfold allNodes
      rw [mem_dedupNames, mem_dedupNames, hin, hout]
      simp only [List.mem_append]
      rw [hmapmem n]
    by_cases hn : n ∈ allNodes c1
    · rw [if_pos hn, if_pos (hiff.mp hn)]
    · rw [if_neg hn, if_neg (fun h2 => hn (hiff.mpr h2))]
  obtain ⟨r1, r2, h1, h2, h3⟩ :=
    simFold_pointwise hin hout hmem hnd hnd2 hwf hwf2 c1.stimulus _ _ hinit
  refine ⟨r1, r2, h1, ?_, h3⟩
  show simFold c2 c2.stimulus ((allNodes c2).map (fun n => (n, ([] : List Int)))) = .ok r2
  rw [← hstim]
  exact h2

/-- Netlists for the C3 witness: the same circuit with its two gate
definitions in either order (the second order needs two fixed-point
passes). -/
def netC3a : String := "INPUTS: a\nOUTPUTS: v\nGATES:\nu = NOT(a)\nv = NOT(u)\nSTIMULUS:\n0 0\n1 1"

def netC3b : String := "INPUTS: a\nOUTPUTS: v\nGATES:\nv = NOT(u)\nu = NOT(a)\nSTIMULUS:\n0 0\n1 1"

def circC3a : Circuit :=
  ⟨["a".data], ["v".data],
   [⟨"u".data, "NOT".data, ["a".data]⟩, ⟨"v".data, "NOT".data, ["u".data]⟩],
   [(0, [0]), (1, [1])]⟩

def circC3b : Circuit :=
  ⟨["a".data], ["v".data],
   [⟨"v".data, "NOT".data, ["u".data]⟩, ⟨"u".data, "NOT".data, ["a".data]⟩],
   [(0, [0]), (1, [1])]⟩

/-- Witness for C3 on the two-gate chain in both orders. -/
theorem C3_witness :
    parse_netlsit netC3a = .ok circC3a ∧ parse_netlsit netC3b = .ok circC3b ∧
    circC3a.gates ≠ circC3b.gates ∧
    ∃ w1 w2, simulate circC3a = .ok w1 ∧ simulate circC3b = .ok w2 ∧
      ∀ n, wfGet w1 n = wfGet w2 n := by
  refine ⟨rfl, rfl, by decide, ?_⟩
  exact C3_gate_order_insensitive circC3a circC3b rfl rfl rfl
    (List.Perm.swap _ _ _) (by decide) (by decide)
